import Mathlib

set_option maxHeartbeats 1600000

namespace Baja

/-!  A shallow embedding of the dynamic path-expression engine of
`src/index.ts` (`LGet`, `LSet`, `evaluatePath`, `setValueAtPath`,
`tokenizePath`, `parseArguments`, `parseValue`).

Modelling scope: JavaScript values are modelled as finite trees; reference
aliasing, prototype chains, getters/setters, property attributes, the exotic
`length` property of arrays and built-in members of primitives (such as
`"s".length`) are outside the model.  JavaScript numbers are modelled as exact
rationals plus `NaN`; infinities, negative zero, 64-bit float rounding and the
non-decimal forms accepted by `Number(...)` (hex/octal/binary, `Infinity`) are
outside the model.  The module is ES-module (strict-mode) code, so property
assignment on a primitive throws a `TypeError`; the model reflects that.  -/

/-- Model of a JavaScript number: a finite value (as an exact rational) or
`NaN`. -/
inductive JNum where
  | rat (q : Rat)
  | nan
  deriving DecidableEq

/-- Model of a JavaScript value as a finite tree.  Arrays carry their element
list and, separately, their non-index string-keyed own properties (JS arrays
are objects, so `a["x"] = 1` on an array is legal).  Objects are
insertion-ordered association lists. -/
inductive JValue where
  | null
  | undef
  | bool (b : Bool)
  | num (n : JNum)
  | str (s : String)
  | arr (elems : List JValue) (props : List (String × JValue))
  | obj (fields : List (String × JValue))

/-- Shorthand for a finite numeric value. -/
def jn (q : Rat) : JValue := .num (.rat q)

/-- JS truthiness (`!obj` in `LGet`/`LSet` lines 74 and 92). -/
def truthy : JValue → Bool
  | .null | .undef => false
  | .bool b => b
  | .num (.rat q) => q != 0
  | .num .nan => false
  | .str s => s != ""
  | .arr _ _ => true
  | .obj _ => true

/-- JS `current == null` (loose equality with null: null or undefined). -/
def isNullish : JValue → Bool
  | .null | .undef => true
  | _ => false

/-- First-match lookup in an insertion-ordered association list. -/
def alookup (k : String) : List (String × JValue) → Option JValue
  | [] => none
  | (k', v) :: rest => if k' = k then some v else alookup k rest

/-- JS property write on an ordered object: an existing key is updated in
place, a new key is appended at the end. -/
def ainsert (k : String) (v : JValue) : List (String × JValue) → List (String × JValue)
  | [] => [(k, v)]
  | (k', w) :: rest => if k' = k then (k', v) :: rest else (k', w) :: ainsert k v rest

/-- JS array element write `a[n] = v`: out-of-range indices extend the array,
the gap filled with holes, which read back as `undefined`. -/
def lsetPad : List JValue → Nat → JValue → List JValue
  | [], 0, v => [v]
  | [], n+1, v => .undef :: lsetPad [] n v
  | _ :: rest, 0, v => v :: rest
  | e :: rest, n+1, v => e :: lsetPad rest n v

/-- Accumulate the decimal value of a digit run; `none` on a non-digit. -/
def digitsVal (acc : Nat) : List Char → Option Nat
  | [] => some acc
  | c :: cs => if c.isDigit then digitsVal (acc * 10 + (c.toNat - 48)) cs else none

/-- Whether a string is a canonical JS array index (`"0"`, or digits with no
leading zero, value below `2^32 - 1`); such property keys address array
elements. -/
def strCanonIndex (s : String) : Option Nat :=
  match s.data with
  | [] => none
  | ['0'] => some 0
  | c :: cs =>
    if '1' ≤ c ∧ c ≤ '9' then
      match digitsVal (c.toNat - 48) cs with
      | some n => if n < 4294967295 then some n else none
      | none => none
    else none

/-- Strip trailing `'0'` characters. -/
def stripTrailZeros (cs : List Char) : List Char :=
  (cs.reverse.dropWhile (· = '0')).reverse

/-- Left-pad a digit string with `'0'` to length `k`. -/
def padZeros (cs : List Char) (k : Nat) : List Char :=
  List.replicate (k - cs.length) '0' ++ cs

/-- Least `k ≤ 40` with `den ∣ 10^k`, if any. -/
def pow10div (den : Nat) : Option Nat :=
  (List.range 41).find? (fun k => 10 ^ k % den = 0)

/-- JS `ToString` on a finite number, for the numbers this engine can
produce (integers, and fractions with a finite decimal expansion). -/
def ratToJsString (q : Rat) : String :=
  if q.den = 1 then toString q.num
  else
    match pow10div q.den with
    | some k =>
      let scaled : Int := q.num * ((10 ^ k) / (q.den : Int))
      let sign := if scaled < 0 then "-" else ""
      let m := scaled.natAbs
      let ip := m / 10 ^ k
      let fp := m % 10 ^ k
      let fracs := stripTrailZeros (padZeros (Nat.toDigits 10 fp) k)
      sign ++ toString ip ++ "." ++ String.mk fracs
    | none => "~" ++ toString q.num ++ "/" ++ toString q.den

/-- A member key as it appears in an `index` token: a number or a string
(`PathToken` line 63: `value: number | string`). -/
inductive JKey where
  | knum (n : JNum)
  | kstr (s : String)
  deriving DecidableEq

/-- JS property-key coercion: the key a member access actually uses. -/
def keyString : JKey → String
  | .knum (.rat q) => ratToJsString q
  | .knum .nan => "NaN"
  | .kstr s => s

/-- `current[k]` member read.  On objects: ordered-map lookup; on arrays:
element access for canonical indices, otherwise property lookup; missing
members and member reads on primitives yield `undefined`. -/
def getMember (v : JValue) (k : JKey) : JValue :=
  match v with
  | .obj fields => (alookup (keyString k) fields).getD .undef
  | .arr elems props =>
    match strCanonIndex (keyString k) with
    | some n => (elems.get? n).getD .undef
    | none => (alookup (keyString k) props).getD .undef
  | _ => (.undef)

/-- Whether `v[k] = w` succeeds: only objects and arrays accept property
writes; in strict-mode code a write on a primitive or null throws. -/
def assignable : JValue → Bool
  | .obj _ => true
  | .arr _ _ => true
  | _ => false

/-- `current[k] = w` member write (total companion of `assignable`; on a
non-assignable value it returns the value unchanged, a case the engine never
relies on). -/
def setMember (v : JValue) (k : JKey) (w : JValue) : JValue :=
  match v with
  | .obj fields => .obj (ainsert (keyString k) w fields)
  | .arr elems props =>
    match strCanonIndex (keyString k) with
    | some n => .arr (lsetPad elems n w) props
    | none => .arr elems (ainsert (keyString k) w props)
  | _ => v

/-- Characters `String.prototype.trim` and `Number(...)` treat as whitespace
(the ASCII ones; exotic Unicode spaces are outside the model). -/
def jsSpace (c : Char) : Bool :=
  c = ' ' || c = '\t' || c = '\n' || c = '\r' || c = '\x0b' || c = '\x0c'

/-- JS `s.trim()` on a character list. -/
def trimChars (cs : List Char) : List Char :=
  ((cs.dropWhile jsSpace).reverse.dropWhile jsSpace).reverse

/-- JS `s.trim()`. -/
def jsTrim (s : String) : String := String.mk (trimChars s.data)

/-- Split a leading digit run off a character list. -/
def takeDigits (cs : List Char) : List Char × List Char :=
  (cs.takeWhile Char.isDigit, cs.dropWhile Char.isDigit)

/-- Decimal value of a digit run. -/
def digitsNat (ds : List Char) : Nat := ds.foldl (fun a c => a * 10 + (c.toNat - 48)) 0

/-- The exponent suffix of a numeric string (`e`/`E`, optional sign, digits);
`some 0` on empty input, `none` when the remainder is not a valid suffix. -/
def numExpSuffix : List Char → Option Int
  | [] => some 0
  | c :: cs =>
    if c = 'e' || c = 'E' then
      let sc : Int × List Char :=
        match cs with
        | '+' :: r => (1, r)
        | '-' :: r => (-1, r)
        | _ => (1, cs)
      let (ds, rest) := takeDigits sc.2
      if ds ≠ [] ∧ rest = [] then some (sc.1 * (digitsNat ds : Int)) else none
    else none

/-- The exact rational `sgn * (ip + fp / 10^k) * 10^e`, the value of a
decimal scientific literal with integer part `ip`, `k` fraction digits of
value `fp`, and exponent `e`. -/
def sciRat (sgn : Int) (ip fp k : Nat) (e : Int) : Rat :=
  let mant : Int := sgn * ((ip * 10 ^ k + fp : Nat) : Int)
  match e with
  | .ofNat n => mkRat (mant * ((10 ^ n : Nat) : Int)) (10 ^ k)
  | .negSucc n => mkRat mant (10 ^ k * 10 ^ (n + 1))

/-- `Number(...)` on an already-trimmed character list: empty means `0`;
otherwise an optionally signed decimal with optional fraction and exponent.
Returns `none` for `NaN`. -/
def jsNumberCore (cs : List Char) : Option Rat :=
  if cs = [] then some 0
  else
    let sc : Int × List Char :=
      match cs with
      | '+' :: r => (1, r)
      | '-' :: r => (-1, r)
      | _ => (1, cs)
    let (ip, cs2) := takeDigits sc.2
    match cs2 with
    | '.' :: cs3 =>
      let (fp, cs4) := takeDigits cs3
      if ip = [] ∧ fp = [] then none
      else
        match numExpSuffix cs4 with
        | some e => some (sciRat sc.1 (digitsNat ip) (digitsNat fp) fp.length e)
        | none => none
    | _ =>
      if ip = [] then none
      else
        match numExpSuffix cs2 with
        | some e => some (sciRat sc.1 (digitsNat ip) 0 0 e)
        | none => none

/-- Model of the JS `Number(s)` conversion used by the tokenizer (line 230)
and `parseValue` (line 363), restricted to decimal numeric strings. -/
def jsNumber (s : String) : Option Rat := jsNumberCore (trimChars s.data)

/-- Skip JSON whitespace. -/
def jsonWs (cs : List Char) : List Char :=
  cs.dropWhile (fun c => c = ' ' || c = '\t' || c = '\n' || c = '\r')

/-- Hexadecimal digit value. -/
def hexVal (c : Char) : Option Nat :=
  if '0' ≤ c ∧ c ≤ '9' then some (c.toNat - 48)
  else if 'a' ≤ c ∧ c ≤ 'f' then some (c.toNat - 87)
  else if 'A' ≤ c ∧ c ≤ 'F' then some (c.toNat - 55)
  else none

/-- Parse the remainder of a JSON string literal (after the opening quote),
handling the standard escapes. -/
def jsonStrAux : Nat → List Char → Option (List Char × List Char)
  | 0, _ => none
  | _, [] => none
  | fuel+1, c :: cs =>
    if c = '"' then some ([], cs)
    else if c = '\\' then
      match cs with
      | [] => none
      | e :: cs' =>
        let esc : Option (Char × List Char) :=
          if e = '"' then some ('"', cs')
          else if e = '\\' then some ('\\', cs')
          else if e = '/' then some ('/', cs')
          else if e = 'b' then some ('\x08', cs')
          else if e = 'f' then some ('\x0c', cs')
          else if e = 'n' then some ('\n', cs')
          else if e = 'r' then some ('\r', cs')
          else if e = 't' then some ('\t', cs')
          else if e = 'u' then
            match cs' with
            | a :: b :: c2 :: d :: rest =>
              match hexVal a, hexVal b, hexVal c2, hexVal d with
              | some x, some y, some z, some w =>
                some (Char.ofNat (((x * 16 + y) * 16 + z) * 16 + w), rest)
              | _, _, _, _ => none
            | _ => none
          else none
        match esc with
        | some (ch, rest) =>
          match jsonStrAux fuel rest with
          | some (out, r) => some (ch :: out, r)
          | none => none
        | none => none
    else
      match jsonStrAux fuel cs with
      | some (out, r) => some (c :: out, r)
      | none => none

/-- The fractional part of a JSON number. -/
def jsonFrac : List Char → Option (List Char × List Char)
  | '.' :: r =>
    let (fp, rest) := takeDigits r
    if fp = [] then none else some (fp, rest)
  | cs => some (([] : List Char), cs)

/-- The exponent part of a JSON number. -/
def jsonExp : List Char → Option (Int × List Char)
  | [] => some (0, [])
  | c :: cs =>
    if c = 'e' || c = 'E' then
      let sc : Int × List Char :=
        match cs with
        | '+' :: r => (1, r)
        | '-' :: r => (-1, r)
        | _ => (1, cs)
      let (ds, rest) := takeDigits sc.2
      if ds = [] then none else some (sc.1 * (digitsNat ds : Int), rest)
    else some (0, c :: cs)

/-- A JSON number (strict grammar: optional minus, no leading zeros). -/
def jsonNumber (cs : List Char) : Option (Rat × List Char) :=
  let sc : Int × List Char :=
    match cs with
    | '-' :: r => (-1, r)
    | _ => (1, cs)
  let (ip, rest) := takeDigits sc.2
  if ip = [] then none
  else if ip.length > 1 ∧ ip.head? = some '0' then none
  else
    match jsonFrac rest with
    | none => none
    | some (fp, rest2) =>
      match jsonExp rest2 with
      | none => none
      | some (e, rest3) =>
        some (sciRat sc.1 (digitsNat ip) (digitsNat fp) fp.length e, rest3)

mutual

/-- Model of the JavaScript `JSON.parse` builtin (strict JSON grammar), used
by `parseValue` for bracketed and braced fields (lines 347, 357): one JSON
value plus the unconsumed remainder.  Duplicate object keys follow the
last-wins rule via `ainsert`. -/
def jsonVal : Nat → List Char → Option (JValue × List Char)
  | 0, _ => none
  | fuel+1, cs =>
    match jsonWs cs with
    | '"' :: r =>
      match jsonStrAux (fuel + 1) r with
      | some (content, rest) => some (.str (String.mk content), rest)
      | none => none
    | '[' :: r =>
      match jsonWs r with
      | ']' :: rest => some (.arr [] [], rest)
      | r2 =>
        match jsonElems fuel r2 with
        | some (vs, rest) => some (.arr vs [], rest)
        | none => none
    | '\x7b' :: r =>
      match jsonWs r with
      | '\x7d' :: rest => some (.obj [], rest)
      | r2 =>
        match jsonMembers fuel r2 with
        | some (ms, rest) =>
          some (.obj (ms.foldl (fun acc kv => ainsert kv.1 kv.2 acc) []), rest)
        | none => none
    | 't' :: 'r' :: 'u' :: 'e' :: rest => some (.bool true, rest)
    | 'f' :: 'a' :: 'l' :: 's' :: 'e' :: rest => some (.bool false, rest)
    | 'n' :: 'u' :: 'l' :: 'l' :: rest => some (.null, rest)
    | r =>
      match jsonNumber r with
      | some (q, rest) => some (.num (.rat q), rest)
      | none => none

/-- The comma-separated elements of a JSON array, up to the closing bracket. -/
def jsonElems : Nat → List Char → Option (List JValue × List Char)
  | 0, _ => none
  | fuel+1, cs =>
    match jsonVal fuel cs with
    | none => none
    | some (v, rest) =>
      match jsonWs rest with
      | ',' :: r2 =>
        match jsonElems fuel r2 with
        | some (vs, r3) => some (v :: vs, r3)
        | none => none
      | ']' :: r2 => some ([v], r2)
      | _ => none

/-- The comma-separated members of a JSON object, up to the closing brace. -/
def jsonMembers : Nat → List Char → Option (List (String × JValue) × List Char)
  | 0, _ => none
  | fuel+1, cs =>
    match jsonWs cs with
    | '"' :: r =>
      match jsonStrAux (fuel + 1) r with
      | none => none
      | some (key, r2) =>
        match jsonWs r2 with
        | ':' :: r3 =>
          match jsonVal fuel r3 with
          | none => none
          | some (v, r4) =>
            match jsonWs r4 with
            | ',' :: r5 =>
              match jsonMembers fuel r5 with
              | some (ms, r6) => some ((String.mk key, v) :: ms, r6)
              | none => none
            | '\x7d' :: r5 => some ([(String.mk key, v)], r5)
            | _ => none
        | _ => none
    | _ => none

end

/-- `JSON.parse` on a whole string: the parse must consume everything but
trailing whitespace; `none` models a thrown `SyntaxError`. -/
def jsonParse (s : String) : Option JValue :=
  match jsonVal (2 * s.length + 2) s.data with
  | some (v, rest) => if jsonWs rest = [] then some v else none
  | none => none

/-- Model of `parseValue` (lines 330-375): trim, then try in order the
quoted, bracketed, braced, numeric, boolean, `null` and `undefined` shapes,
falling back to the trimmed string itself. -/
def parseValue (valueStr : String) : JValue :=
  let t := jsTrim valueStr
  let cs := t.data
  if cs = [] then .str ""
  else if (cs.head? = some '"' ∧ cs.getLast? = some '"') ∨
      (cs.head? = some '\'' ∧ cs.getLast? = some '\'') then
    .str (String.mk (cs.drop 1).dropLast)
  else if cs.head? = some '[' ∧ cs.getLast? = some ']' then
    (jsonParse t).getD (.str t)
  else if cs.head? = some '\x7b' ∧ cs.getLast? = some '\x7d' then
    (jsonParse t).getD (.str t)
  else
    match jsNumber t with
    | some q => jn q
    | none =>
      if t = "true" then .bool true
      else if t = "false" then .bool false
      else if t = "null" then .null
      else if t = "undefined" then .undef
      else .str t

/-- The scanner loop of `parseArguments` (lines 285-318).  The state is the
remaining input, the previous raw character (`argsStr[i-1]`), the active
quote character if any (`inString`/`stringChar`), the paren and bracket
depths, and the current field buffer. -/
def parseArgsLoop : List Char → Option Char → Option Char → Int → Int → List Char → List JValue
  | [], _, _, _, _, current =>
    if trimChars current = [] then [] else [parseValue (String.mk (trimChars current))]
  | c :: cs, prev, inStr, par, br, current =>
    match inStr with
    | some q =>
      if c = q ∧ prev ≠ some '\\' then
        parseArgsLoop cs (some c) none par br (current ++ [c])
      else
        parseArgsLoop cs (some c) (some q) par br (current ++ [c])
    | none =>
      if c = '"' ∨ c = '\'' then parseArgsLoop cs (some c) (some c) par br (current ++ [c])
      else if c = '(' then parseArgsLoop cs (some c) none (par + 1) br (current ++ [c])
      else if c = ')' then parseArgsLoop cs (some c) none (par - 1) br (current ++ [c])
      else if c = '[' then parseArgsLoop cs (some c) none par (br + 1) (current ++ [c])
      else if c = ']' then parseArgsLoop cs (some c) none par (br - 1) (current ++ [c])
      else if c = ',' ∧ par = 0 ∧ br = 0 then
        parseValue (String.mk (trimChars current)) :: parseArgsLoop cs (some c) none par br []
      else parseArgsLoop cs (some c) none par br (current ++ [c])

/-- Model of `parseArguments` (lines 273-325). -/
def parseArguments (argsStr : String) : List JValue :=
  if trimChars argsStr.data = [] then []
  else parseArgsLoop argsStr.data none none 0 0 []

/-- Path tokens (line 61): property access, bracketed index, function call. -/
inductive PathToken where
  | property (value : String)
  | index (value : JKey)
  | function (name : String) (args : List JValue)

/-- The `index` token built from bracket content: numeric key when
`Number(content)` is not `NaN`, else the raw string key (line 230). -/
def indexTokenOf (content : String) : PathToken :=
  match jsNumber content with
  | some q => .index (.knum (.rat q))
  | none => .index (.kstr content)

/-- Scanner mode of `tokenizePath` (lines 196-268): the main accumulator
loop, or one of the two inner bracket/paren-matching loops with their depth
counter and collected content. -/
inductive TokMode where
  | norm (acc : List Char)
  | inBr (depth : Nat) (content : List Char)
  | inPar (name : List Char) (depth : Nat) (content : List Char)

/-- The `tokenizePath` scan (lines 201-261) as a one-character-per-step state
machine; an unmatched `[` or `(` consumes the rest of the input and still
emits its token, as in the source. -/
def tokRun : List Char → TokMode → List PathToken
  | [], .norm acc => if acc = [] then [] else [.property (String.mk acc)]
  | [], .inBr _ content => [indexTokenOf (String.mk content)]
  | [], .inPar name _ content =>
    [.function (String.mk name) (parseArguments (String.mk content))]
  | c :: cs, .norm acc =>
    if c = '.' then
      if acc = [] then tokRun cs (.norm [])
      else .property (String.mk acc) :: tokRun cs (.norm [])
    else if c = '[' then
      if acc = [] then tokRun cs (.inBr 1 [])
      else .property (String.mk acc) :: tokRun cs (.inBr 1 [])
    else if c = '(' then tokRun cs (.inPar acc 1 [])
    else tokRun cs (.norm (acc ++ [c]))
  | c :: cs, .inBr depth content =>
    if c = '[' then tokRun cs (.inBr (depth + 1) (content ++ [c]))
    else if c = ']' then
      if depth = 1 then indexTokenOf (String.mk content) :: tokRun cs (.norm [])
      else tokRun cs (.inBr (depth - 1) (content ++ [c]))
    else tokRun cs (.inBr depth (content ++ [c]))
  | c :: cs, .inPar name depth content =>
    if c = '(' then tokRun cs (.inPar name (depth + 1) (content ++ [c]))
    else if c = ')' then
      if depth = 1 then
        .function (String.mk name) (parseArguments (String.mk content)) :: tokRun cs (.norm [])
      else tokRun cs (.inPar name (depth - 1) (content ++ [c]))
    else tokRun cs (.inPar name depth (content ++ [c]))

/-- Model of `tokenizePath` (lines 196-268). -/
def tokenizePath (path : String) : List PathToken := tokRun path.data (.norm [])

/-- Whether a value is exactly `undefined`. -/
def isUndef : JValue → Bool
  | .undef => true
  | _ => false

/-- The token loop of `evaluatePath` (lines 110-132) with the final
`undefined`-to-default substitution.  A `function` token returns the default
because in this model no member is callable (`typeof ... === 'function'` is
always false on plain data). -/
def evalTokens (current d : JValue) : List PathToken → JValue
  | [] => if isUndef current then d else current
  | t :: rest =>
    if isNullish current then d
    else
      match t with
      | .property name => evalTokens (getMember current (.kstr name)) d rest
      | .index k => evalTokens (getMember current k) d rest
      | .function _ _ => d

/-- Model of `evaluatePath` (lines 106-133). -/
def evaluatePath (o : JValue) (path : String) (defaultValue : JValue) : JValue :=
  evalTokens o defaultValue (tokenizePath path)

/-- Model of `LGet` (lines 73-82).  The source's top-level `try`/`catch`
collapses in the model because the modelled `evaluatePath` is total. -/
def LGet (o : JValue) (path : String) (defaultValue : JValue) : JValue :=
  if truthy o then evaluatePath o path defaultValue else defaultValue

/-- `evaluatePath` with the failure channel made explicit: `none` marks the
internal short-circuits of lines 111-112 (null/absent mid-traversal), 126
(non-callable function target) and 132 (`undefined` result).  `LGet` maps all
of them to the default value. -/
def evalTokensE (current : JValue) : List PathToken → Option JValue
  | [] => if isUndef current then none else some current
  | t :: rest =>
    if isNullish current then none
    else
      match t with
      | .property name => evalTokensE (getMember current (.kstr name)) rest
      | .index k => evalTokensE (getMember current k) rest
      | .function _ _ => none

/-- The container auto-vivified for a null/absent target: an array when the
next token is an `index`, else an object (lines 151, 161). -/
def vivifyFor : PathToken → JValue
  | .index _ => .arr [] []
  | _ => .obj []

/-- The internal errors `setValueAtPath` can throw: lines 157, 184, 169 and
189 of the source, plus the strict-mode `TypeError` of a property write on a
primitive. -/
inductive SetErr where
  | accessNonArray
  | setNonArray
  | functionNotFound (name : String)
  | setFunctionResult
  | typeError
  deriving DecidableEq

/-- Model of the token loop of `setValueAtPath` (lines 138-191), rebuilding
the mutated root.  The result is the root as left by the call — mutation up
to a failure point included, matching in-place mutation through references —
together with the thrown error, if any.  A null/absent `property`/`index`
target is auto-vivified as `[]` when the next token is an `index`, else as
an object (lines 151, 161). -/
def setTokens (current value : JValue) : List PathToken → JValue × Option SetErr
  | [] => (current, none)
  | [t] =>
    match t with
    | .property name =>
      if assignable current then (setMember current (.kstr name) value, none)
      else (current, some .typeError)
    | .index k =>
      match current with
      | .arr es ps => (setMember (.arr es ps) k value, none)
      | _ => (current, some .setNonArray)
    | .function _ _ => (current, some .setFunctionResult)
  | t :: next :: rest =>
    match t with
    | .property name =>
      let w := getMember current (.kstr name)
      if isNullish w then
        if assignable current then
          let sub := setTokens (vivifyFor next) value (next :: rest)
          (setMember current (.kstr name) sub.1, sub.2)
        else (current, some .typeError)
      else
        let sub := setTokens w value (next :: rest)
        (setMember current (.kstr name) sub.1, sub.2)
    | .index k =>
      match current with
      | .arr es ps =>
        let w := getMember (.arr es ps) k
        if isNullish w then
          let sub := setTokens (vivifyFor next) value (next :: rest)
          (setMember (.arr es ps) k sub.1, sub.2)
        else
          let sub := setTokens w value (next :: rest)
          (setMember (.arr es ps) k sub.1, sub.2)
      | _ => (current, some .accessNonArray)
    | .function name _ => (current, some (.functionNotFound name))

/-- Model of `setValueAtPath` (lines 138-191) on a path string. -/
def setValueAtPath (o : JValue) (path : String) (value : JValue) : JValue × Option SetErr :=
  setTokens o value (tokenizePath path)

/-- Model of `LSet` (lines 91-101): the root — mutated in place up to a
possible failure point — is returned both on success and from the `catch`. -/
def LSet (o : JValue) (path : String) (value : JValue) : JValue :=
  if truthy o then (setValueAtPath o path value).1 else o

/-- Whether a token is a `property` or `index` token (no function call). -/
def propOrIndex : PathToken → Bool
  | .function _ _ => false
  | _ => true

/-- Whether a value is an object (string-keyed mapping). -/
def isObjV : JValue → Bool
  | .obj _ => true
  | _ => false

/-- Whether a value is an array (indexable sequence). -/
def isArrV : JValue → Bool
  | .arr _ _ => true
  | _ => false

/-- A concrete member slot of a container: an array element or a
string-keyed property. -/
inductive Slot where
  | elem (n : Nat)
  | prop (s : String)
  deriving DecidableEq

/-- The slot a member write `current[k] = ·` lands in. -/
def slotOf (current : JValue) (k : JKey) : Slot :=
  match current with
  | .arr _ _ =>
    match strCanonIndex (keyString k) with
    | some n => .elem n
    | none => .prop (keyString k)
  | _ => .prop (keyString k)

/-- Read one member slot (missing slots and slots of primitives read as
`undefined`, as member reads do). -/
def getSlot (v : JValue) : Slot → JValue
  | .elem n =>
    match v with
    | .arr es _ => (es.get? n).getD .undef
    | _ => .undef
  | .prop s =>
    match v with
    | .obj fields => (alookup s fields).getD .undef
    | .arr _ props => (alookup s props).getD .undef
    | _ => (.undef)

/-- Read a chain of member slots. -/
def chainGet : JValue → List Slot → JValue
  | v, [] => v
  | v, sl :: q => chainGet (getSlot v sl) q

/-- The chain of slots `setValueAtPath` descends through (and writes at),
mirroring `setTokens`; empty when the walk fails before mutating anything at
the current level. -/
def writePath (current value : JValue) : List PathToken → List Slot
  | [] => []
  | [t] =>
    match t with
    | .property name => if assignable current then [slotOf current (.kstr name)] else []
    | .index k =>
      match current with
      | .arr es ps => [slotOf (.arr es ps) k]
      | _ => []
    | .function _ _ => []
  | t :: next :: rest =>
    match t with
    | .property name =>
      let w := getMember current (.kstr name)
      if isNullish w then
        if assignable current then
          slotOf current (.kstr name) :: writePath (vivifyFor next) value (next :: rest)
        else []
      else slotOf current (.kstr name) :: writePath w value (next :: rest)
    | .index k =>
      match current with
      | .arr es ps =>
        let w := getMember (.arr es ps) k
        if isNullish w then
          slotOf (.arr es ps) k :: writePath (vivifyFor next) value (next :: rest)
        else slotOf (.arr es ps) k :: writePath w value (next :: rest)
      | _ => []
    | .function _ _ => []

/-- Whether slot path `q` diverges from slot path `w`: they agree on a
common (possibly empty) strict front and then differ at a slot both have. -/
def divergent : List Slot → List Slot → Bool
  | [], _ => false
  | _, [] => false
  | a :: q, b :: w => if a = b then divergent q w else true

/-- `q` is a strictly shorter front of `w`. -/
def frontOf (q w : List Slot) : Prop := ∃ s t, q ++ s :: t = w

/-- The keys of `a` survive into `b` in order: `b`'s key list extends `a`'s
(for objects), and element count never shrinks and property keys extend in
order (for arrays).  Nothing is required of non-container values. -/
def keyShapeLE (a b : JValue) : Prop :=
  (∀ fs, a = .obj fs → ∃ fb, b = .obj fb ∧ ∃ t, fs.map Prod.fst ++ t = fb.map Prod.fst) ∧
  (∀ es ps, a = .arr es ps →
    ∃ es' ps', b = .arr es' ps' ∧ es.length ≤ es'.length ∧
      ∃ t, ps.map Prod.fst ++ t = ps'.map Prod.fst)

/-- Modelled on the claim's wording for the argument splitter: the raw
top-level fields of an argument string — split exactly at the commas that
occur outside quote mode and at zero paren/bracket depth — with the same
quote/escape/depth state machine as the scanner, every field kept. -/
def topSplitLoop : List Char → Option Char → Option Char → Int → Int → List Char →
    List (List Char)
  | [], _, _, _, _, current => [current]
  | c :: cs, prev, inStr, par, br, current =>
    match inStr with
    | some q =>
      if c = q ∧ prev ≠ some '\\' then
        topSplitLoop cs (some c) none par br (current ++ [c])
      else
        topSplitLoop cs (some c) (some q) par br (current ++ [c])
    | none =>
      if c = '"' ∨ c = '\'' then topSplitLoop cs (some c) (some c) par br (current ++ [c])
      else if c = '(' then topSplitLoop cs (some c) none (par + 1) br (current ++ [c])
      else if c = ')' then topSplitLoop cs (some c) none (par - 1) br (current ++ [c])
      else if c = '[' then topSplitLoop cs (some c) none par (br + 1) (current ++ [c])
      else if c = ']' then topSplitLoop cs (some c) none par (br - 1) (current ++ [c])
      else if c = ',' ∧ par = 0 ∧ br = 0 then
        current :: topSplitLoop cs (some c) none par br []
      else topSplitLoop cs (some c) none par br (current ++ [c])

/-- The top-level fields of an argument string, as strings. -/
def topSplit (s : String) : List String :=
  (topSplitLoop s.data none none 0 0 []).map String.mk

/-- Apply the Value Literal Parser to each trimmed field, except that a final
field that is empty after trimming is not emitted (the scanner only flushes a
non-empty trimmed final field, line 320). -/
def applyFields : List (List Char) → List JValue
  | [] => []
  | [f] => if trimChars f = [] then [] else [parseValue (String.mk (trimChars f))]
  | f :: fs => parseValue (String.mk (trimChars f)) :: applyFields fs

/-- Whether the trimmed input is empty. -/
def shapeEmpty (t : String) : Bool := t.data = []

/-- Wrapped in quote characters: first and last character are both `"` or
both `'` (as in the source, a single quote character alone also counts). -/
def shapeQuoted (t : String) : Bool :=
  (t.data.head? = some '"' ∧ t.data.getLast? = some '"') ∨
    (t.data.head? = some '\'' ∧ t.data.getLast? = some '\'')

/-- The inner substring of a quoted field (quotes stripped, no unescaping). -/
def quotedInner (t : String) : String := String.mk (t.data.drop 1).dropLast

/-- Wrapped in square brackets. -/
def shapeBracketed (t : String) : Bool :=
  t.data.head? = some '[' ∧ t.data.getLast? = some ']'

/-- Wrapped in curly braces. -/
def shapeBraced (t : String) : Bool :=
  t.data.head? = some '\x7b' ∧ t.data.getLast? = some '\x7d'

/-- Fully numeric under the `Number(...)` test. -/
def shapeNumeric (t : String) : Bool := (jsNumber t).isSome

/-- The Value Literal Parser as the spec states it (§4.3): try the recognized
literal shapes in order — empty, quoted string, bracketed structured parse
with string fallback, braced structured parse with string fallback, numeric,
`true`/`false`, `null`, `undefined` — first match wins, and any input
matching no shape is returned verbatim as the trimmed string. -/
def parseValueSpec (field : String) : JValue :=
  let t := jsTrim field
  if shapeEmpty t then .str ""
  else if shapeQuoted t then .str (quotedInner t)
  else if shapeBracketed t then (jsonParse t).getD (.str t)
  else if shapeBraced t then (jsonParse t).getD (.str t)
  else if shapeNumeric t then jn ((jsNumber t).getD 0)
  else if t = "true" then .bool true
  else if t = "false" then .bool false
  else if t = "null" then .null
  else if t = "undefined" then .undef
  else .str t

/-!  Heap extension for the function-invocation channel.  The main model
treats value graphs as plain data, on which `typeof current[name] ===
'function'` (line 123) is always false.  To settle what happens when the
invocation of line 124 actually fires, the following heap model gives objects
identity (`Store` cells addressed by `ref`) and lets members be callable
methods; a method runs against `this` through the store, so its effects on
the root are observable after the call.  -/

/-- Defunctionalized callable members: `incrField name` is the impure method
`function () { return ++this.<name>; }` — enough to represent a member whose
invocation both returns a value and mutates its receiver. -/
inductive MethodCode where
  | incrField (name : String)
  deriving DecidableEq

/-- A value in the heap model: a plain-data value of the main model, a
reference to a heap object, or a function value read off a method member. -/
inductive HValue where
  | prim (v : JValue)
  | ref (r : Nat)
  | fnv (m : MethodCode)

/-- A member of a heap object: a data value or a callable method. -/
inductive HMember where
  | val (v : HValue)
  | method (m : MethodCode)

/-- The heap: object `r` is the insertion-ordered member list at index `r`. -/
abbrev Store := List (List (String × HMember))

/-- First-match member lookup on a heap object. -/
def mlookup (k : String) : List (String × HMember) → Option HMember
  | [] => none
  | (k', v) :: rest => if k' = k then some v else mlookup k rest

/-- Member write on a heap object (update in place, append when absent). -/
def minsert (k : String) (v : HMember) : List (String × HMember) → List (String × HMember)
  | [] => [(k, v)]
  | (k', w) :: rest => if k' = k then (k', v) :: rest else (k', w) :: minsert k v rest

/-- The member list of heap object `r`. -/
def storeGet (st : Store) (r : Nat) : List (String × HMember) := (st[r]?).getD []

/-- JS truthiness on heap values (objects and functions are truthy). -/
def truthyH : HValue → Bool
  | .prim v => truthy v
  | .ref _ => true
  | .fnv _ => true

/-- `current == null` on heap values. -/
def isNullishH : HValue → Bool
  | .prim v => isNullish v
  | _ => false

/-- Whether a heap value is exactly `undefined`. -/
def isUndefH : HValue → Bool
  | .prim v => isUndef v
  | _ => false

/-- `q + 1` on an exact rational, by integer arithmetic. -/
def ratIncr (q : Rat) : Rat := mkRat (q.num + q.den) q.den

/-- `current[k]` member read in the heap model: on a reference, look the
member up in the store (a method member reads as a function value); on a
plain-data value, read as in the main model. -/
def readMemberH (st : Store) (current : HValue) (k : JKey) : HValue :=
  match current with
  | .ref r =>
    match mlookup (keyString k) (storeGet st r) with
    | some (.val v) => v
    | some (.method m) => .fnv m
    | none => .prim .undef
  | .prim v => .prim (getMember v k)
  | .fnv _ => .prim (.undef)

/-- Run a method against `this = ref r`: `incrField name` reads the numeric
field, stores its increment back through the store (`NaN` when the field is
not a finite number, as `++` on a non-numeric value), and returns the new
value. -/
def runMethod (st : Store) (r : Nat) : MethodCode → Store × HValue
  | .incrField fname =>
    let fields := storeGet st r
    let q' : JNum :=
      match mlookup fname fields with
      | some (.val (.prim (.num (.rat q)))) => .rat (ratIncr q)
      | _ => .nan
    (st.set r (minsert fname (.val (.prim (.num q'))) fields), .prim (.num q'))

/-- The token loop of `evaluatePath` (lines 110-132) over the heap model,
threading the store: `property`/`index` tokens read members; a `function`
token whose member is a callable method invokes it on `current` (line 124),
possibly mutating the store, and otherwise returns the default (line 126). -/
def evalTokensFx (d : HValue) : Store → HValue → List PathToken → Store × HValue
  | st, current, [] => (st, if isUndefH current then d else current)
  | st, current, t :: rest =>
    if isNullishH current then (st, d)
    else
      match t with
      | .property name => evalTokensFx d st (readMemberH st current (.kstr name)) rest
      | .index k => evalTokensFx d st (readMemberH st current k) rest
      | .function name _ =>
        match current with
        | .ref r =>
          match mlookup name (storeGet st r) with
          | some (.method m) =>
            let sr := runMethod st r m
            evalTokensFx d sr.1 sr.2 rest
          | _ => (st, d)
        | _ => (st, d)

/-- `LGet` (lines 73-82) over the heap model: the falsy-root guard, then
evaluation threading the store; the result is the store after the call and
the returned value. -/
def LGetFx (st : Store) (root : HValue) (path : String) (d : HValue) : Store × HValue :=
  if truthyH root then evalTokensFx d st root (tokenizePath path) else (st, d)

/-- Whether every member of a heap object is a data value (no methods). -/
def fieldsAllVal (fields : List (String × HMember)) : Bool :=
  fields.all (fun kv =>
    match kv.2 with
    | .method _ => false
    | .val _ => true)

/-- Whether no object of the store has a callable member: the value graph is
plain data. -/
def methodFree (st : Store) : Bool := st.all fieldsAllVal


theorem evalTokens_eq (toks : List PathToken) (cur d : JValue) :
    evalTokens cur d toks = (evalTokensE cur toks).getD d := by
  induction toks generalizing cur with
  | nil =>
    simp only [evalTokens, evalTokensE]
    cases h : isUndef cur <;> simp [h]
  | cons t rest ih =>
    simp only [evalTokens, evalTokensE]
    cases h : isNullish cur with
    | true => simp [h]
    | false =>
      cases t with
      | property name => simp [h, ih]
      | index k => simp [h, ih]
      | function name args => simp [h]

/-- C1: `LGet` and `LSet` are total and never propagate an exception: `get`
collapses every internal failure (the `none` results of `evalTokensE`: a
null/absent value mid-traversal, a non-callable function target, an
`undefined` result) to the supplied default, and `set` always returns the
root — mutated in place up to a possible failure point, which in the source
is the same object reference — both on success and on internal error. -/
theorem c1_get_never_throws_set_returns_root (root : JValue) (p : String) (d v : JValue) :
    LGet root p d = (if truthy root then (evalTokensE root (tokenizePath p)).getD d else d) ∧
    LSet root p v = (if truthy root then (setValueAtPath root p v).1 else root) := by
  constructor
  · simp only [LGet, evaluatePath, evalTokens_eq]
  · rfl

theorem tokRun_inBr (s : List Char) (content rest : List Char)
    (hL : '[' ∉ s) (hR : ']' ∉ s) :
    tokRun (s ++ ']' :: rest) (.inBr 1 content) =
      indexTokenOf (String.mk (content ++ s)) :: tokRun rest (.norm []) := by
  induction s generalizing content with
  | nil => simp [tokRun]
  | cons c s ih =>
    have hc1 : ¬(c = '[') := fun e => hL (by simp [e])
    have hc2 : ¬(c = ']') := fun e => hR (by simp [e])
    have hL' : '[' ∉ s := fun m => hL (List.mem_cons_of_mem _ m)
    have hR' : ']' ∉ s := fun m => hR (List.mem_cons_of_mem _ m)
    simp only [List.cons_append, tokRun, hc1, hc2, if_false]
    rw [List.append_eq, ih (content ++ [c]) hL' hR']
    simp

theorem strmk_data (s : String) : String.mk s.data = s := rfl

/-- C4: index-key typing is decided once at tokenize time.  `"x[3]"` yields
an `index` token with numeric key `3` and `"x[ab]"` one with string key
`"ab"`; in general the bracket content is an `index` token whose key is
numeric exactly when the `Number(...)` parse succeeds, and evaluation
consumes the stored key unchanged (the decision is never revisited). -/
theorem c4_index_key_typing :
    (tokenizePath "x[3]" = [.property "x", .index (.knum (.rat 3))] ∧
      tokenizePath "x[ab]" = [.property "x", .index (.kstr "ab")]) ∧
    (∀ s : String, '[' ∉ s.data → ']' ∉ s.data →
      tokenizePath ("x[" ++ s ++ "]") = [.property "x", indexTokenOf s] ∧
      (∀ q, jsNumber s = some q → indexTokenOf s = .index (.knum (.rat q))) ∧
      (jsNumber s = none → indexTokenOf s = .index (.kstr s))) ∧
    (∀ (cur d : JValue) (k : JKey) (rest : List PathToken), isNullish cur = false →
      evalTokens cur d (.index k :: rest) = evalTokens (getMember cur k) d rest) := by
  refine ⟨⟨rfl, rfl⟩, ?_, ?_⟩
  · intro s hL hR
    refine ⟨?_, ?_, ?_⟩
    · have hdata : ("x[" ++ s ++ "]").data = 'x' :: '[' :: (s.data ++ [']']) := by
        simp [String.data_append]
      rw [tokenizePath, hdata]
      simp only [tokRun, reduceIte]
      rw [tokRun_inBr s.data [] [] hL hR]
      simp [tokRun, strmk_data]
    · intro q h; simp [indexTokenOf, h]
    · intro h; simp [indexTokenOf, h]
  · intro cur d k rest h
    simp [evalTokens, h]

/-- C7: `parseValue` is total and agrees everywhere with `parseValueSpec`,
the spec's first-match-wins cascade over the recognized literal shapes —
empty, quoted, bracketed structured parse with fallback, braced structured
parse with fallback, numeric, `true`/`false`, `null`, `undefined` — with any
unrecognized input returned verbatim as the trimmed string. -/
theorem c7_parse_value_total_first_match (s : String) : parseValue s = parseValueSpec s := by
  cases h : jsNumber (jsTrim s) with
  | some q =>
    simp [parseValue, parseValueSpec, shapeEmpty, shapeQuoted, shapeBracketed,
      shapeBraced, shapeNumeric, quotedInner, h, jn]
  | none =>
    simp [parseValue, parseValueSpec, shapeEmpty, shapeQuoted, shapeBracketed,
      shapeBraced, shapeNumeric, quotedInner, h, jn]

/-- C9: for every falsy root — `null`, `undefined`, `0`, `NaN`, the empty
string, `false` — and every path string (the empty path included), `LGet`
returns the supplied default without any traversal and `LSet` returns the
root unchanged without performing any mutation. -/
theorem c9_falsy_roots_default (root : JValue) (p : String) (d v : JValue)
    (h : truthy root = false) :
    LGet root p d = d ∧ LSet root p v = root ∧
    (truthy .null = false ∧ truthy .undef = false ∧ truthy (jn 0) = false ∧
      truthy (.str "") = false ∧ truthy (.bool false) = false ∧
      truthy (.num .nan) = false) := by
  refine ⟨by simp [LGet, h], by simp [LSet, h], rfl, rfl, rfl, rfl, rfl, rfl⟩

/-- C3: auto-vivification on write.  `set({}, "a.b[0].c", 5)` produces
`{a: {b: [{c: 5}]}}` — `a` is a mapping, `a.b` a sequence, `a.b[0]` a
mapping, and `a.b[0].c = 5` — and in general a null/absent `property`/`index`
target is replaced before descending by `vivifyFor next`, which is an empty
sequence when the next token is an `index` token and an empty mapping
otherwise. -/
theorem c3_auto_vivification :
    (LSet (.obj []) "a.b[0].c" (jn 5) =
        .obj [("a", .obj [("b", .arr [.obj [("c", jn 5)]] [])])] ∧
      isObjV (LGet (LSet (.obj []) "a.b[0].c" (jn 5)) "a" .undef) = true ∧
      isArrV (LGet (LSet (.obj []) "a.b[0].c" (jn 5)) "a.b" .undef) = true ∧
      isObjV (LGet (LSet (.obj []) "a.b[0].c" (jn 5)) "a.b[0]" .undef) = true ∧
      LGet (LSet (.obj []) "a.b[0].c" (jn 5)) "a.b[0].c" .undef = jn 5) ∧
    (∀ (cur v : JValue) (name : String) (next : PathToken) (rest : List PathToken),
      isNullish (getMember cur (.kstr name)) = true → assignable cur = true →
      setTokens cur v (.property name :: next :: rest) =
        (setMember cur (.kstr name) (setTokens (vivifyFor next) v (next :: rest)).1,
          (setTokens (vivifyFor next) v (next :: rest)).2)) ∧
    (∀ (es : List JValue) (ps : List (String × JValue)) (v : JValue) (k : JKey)
        (next : PathToken) (rest : List PathToken),
      isNullish (getMember (.arr es ps) k) = true →
      setTokens (.arr es ps) v (.index k :: next :: rest) =
        (setMember (.arr es ps) k (setTokens (vivifyFor next) v (next :: rest)).1,
          (setTokens (vivifyFor next) v (next :: rest)).2)) ∧
    ((∀ k, vivifyFor (.index k) = .arr [] []) ∧
      (∀ name, vivifyFor (.property name) = .obj []) ∧
      (∀ n args, vivifyFor (.function n args) = .obj [])) := by
  refine ⟨⟨rfl, rfl, rfl, rfl, rfl⟩, ?_, ?_, fun k => rfl, fun n => rfl, fun n a => rfl⟩
  · intro cur v name next rest h1 h2
    simp [setTokens, h1, h2]
  · intro es ps v k next rest h1
    simp [setTokens, h1]

/-- C10: read/write asymmetry of string-keyed `index` tokens on plain
objects.  `get(root, "a[name]")` reads `root.a.name`, but `set` on the same
path fails at that step — `Cannot set array index on non-array` for a
terminal `index` token on a non-array, `Cannot access array index on
non-array` mid-walk — performs no assignment there and returns the root;
`get`, by contrast, simply reads the member off the object. -/
theorem c10_string_index_asymmetry :
    (∀ (v w d : JValue), isUndef v = false →
      LGet (.obj [("a", .obj [("name", v)])]) "a[name]" d = v ∧
      LSet (.obj [("a", .obj [("name", v)])]) "a[name]" w =
        .obj [("a", .obj [("name", v)])] ∧
      (setValueAtPath (.obj [("a", .obj [("name", v)])]) "a[name]" w).2 =
        some .setNonArray) ∧
    (∀ (fs : List (String × JValue)) (val : JValue) (k : JKey),
      setTokens (.obj fs) val [.index k] = (.obj fs, some .setNonArray)) ∧
    (∀ (fs : List (String × JValue)) (val : JValue) (k : JKey) (t2 : PathToken)
        (rest : List PathToken),
      setTokens (.obj fs) val (.index k :: t2 :: rest) = (.obj fs, some .accessNonArray)) ∧
    (∀ (fs : List (String × JValue)) (d : JValue) (k : JKey) (rest : List PathToken),
      evalTokens (.obj fs) d (.index k :: rest) = evalTokens (getMember (.obj fs) k) d rest) := by
  refine ⟨?_, fun fs val k => rfl, fun fs val k t2 rest => rfl, fun fs d k rest => ?_⟩
  · intro v w d h
    have ht : tokenizePath "a[name]" = [.property "a", .index (.kstr "name")] := rfl
    have hidx : indexTokenOf "name" = .index (.kstr "name") := rfl
    refine ⟨?_, ?_, ?_⟩
    · simp [LGet, evaluatePath, ht, hidx, truthy, evalTokens, getMember, alookup,
        keyString, isNullish, h]
    · simp [LSet, setValueAtPath, ht, hidx, truthy, setTokens, getMember, alookup,
        keyString, isNullish, setMember, ainsert]
    · simp [setValueAtPath, ht, hidx, setTokens, getMember, alookup, keyString, isNullish]
  · rfl

theorem isUndef_true_eq (v : JValue) (h : isUndef v = true) : v = .undef := by
  cases v <;> simp_all [isUndef]

theorem alookup_ainsert_same (k : String) (v : JValue) (fs : List (String × JValue)) :
    alookup k (ainsert k v fs) = some v := by
  induction fs with
  | nil => simp [ainsert, alookup]
  | cons kv fs ih =>
    by_cases h : kv.1 = k
    · simp [ainsert, alookup, h]
    · simp [ainsert, alookup, h, ih]

theorem lsetPad_get_same (es : List JValue) (n : Nat) (v : JValue) :
    (lsetPad es n v)[n]? = some v := by
  induction n generalizing es with
  | zero => cases es <;> simp [lsetPad]
  | succ n ih => cases es <;> simp [lsetPad, ih]

theorem getMember_setMember_same (cur : JValue) (k : JKey) (v : JValue)
    (h : assignable cur = true) : getMember (setMember cur k v) k = v := by
  cases cur with
  | obj fs => simp [setMember, getMember, alookup_ainsert_same]
  | arr es ps =>
    cases hc : strCanonIndex (keyString k) with
    | some n => simp [setMember, getMember, hc, List.get?_eq_getElem?, lsetPad_get_same]
    | none => simp [setMember, getMember, hc, alookup_ainsert_same]
  | null => simp [assignable] at h
  | undef => simp [assignable] at h
  | bool b => simp [assignable] at h
  | num x => simp [assignable] at h
  | str s => simp [assignable] at h

theorem setMember_assignable (cur : JValue) (k : JKey) (v : JValue)
    (h : assignable cur = true) : assignable (setMember cur k v) = true := by
  cases cur <;> simp_all [assignable, setMember]
  cases strCanonIndex (keyString k) <;> simp [assignable]

theorem assignable_not_nullish (v : JValue) (h : assignable v = true) :
    isNullish v = false := by
  cases v <;> simp_all [assignable, isNullish]

theorem assignable_truthy (v : JValue) (h : assignable v = true) :
    truthy v = true := by
  cases v <;> simp_all [assignable, truthy]

theorem getMember_nonnull_assignable (cur : JValue) (k : JKey)
    (h : isNullish (getMember cur k) = false) : assignable cur = true := by
  cases cur <;> simp_all [getMember, isNullish, assignable]

theorem setTokens_success_assignable (toks : List PathToken) (cur v : JValue)
    (hne : toks ≠ []) (hok : (setTokens cur v toks).2 = none) :
    assignable cur = true := by
  cases toks with
  | nil => exact absurd rfl hne
  | cons t rest =>
    cases rest with
    | nil =>
      cases t with
      | property name =>
        by_cases ha : assignable cur = true
        · exact ha
        · simp [setTokens, ha] at hok
      | index k =>
        cases cur <;> simp_all [setTokens, assignable]
      | function name args => simp [setTokens] at hok
    | cons next rest =>
      cases t with
      | property name =>
        by_cases hw : isNullish (getMember cur (.kstr name)) = true
        · by_cases ha : assignable cur = true
          · exact ha
          · simp [setTokens, hw, ha] at hok
        · exact getMember_nonnull_assignable _ _ (by simpa using hw)
      | index k =>
        cases cur <;> simp_all [setTokens, assignable]
      | function name args => simp [setTokens] at hok

theorem setTokens_assignable (toks : List PathToken) (cur v : JValue)
    (h : assignable cur = true) : assignable (setTokens cur v toks).1 = true := by
  cases toks with
  | nil => simpa [setTokens]
  | cons t rest =>
    cases rest with
    | nil =>
      cases t with
      | property name => simp [setTokens, h, setMember_assignable _ _ _ h]
      | index k =>
        cases cur with
        | arr es ps =>
          simp [setTokens, setMember_assignable (.arr es ps) _ _ (by simp [assignable])]
        | obj fs => simp [setTokens, assignable]
        | null => simp [assignable] at h
        | undef => simp [assignable] at h
        | bool b => simp [assignable] at h
        | num x => simp [assignable] at h
        | str s => simp [assignable] at h
      | function name args => simpa [setTokens]
    | cons next rest =>
      cases t with
      | property name =>
        by_cases hw : isNullish (getMember cur (.kstr name)) = true
        · simp [setTokens, hw, h, setMember_assignable _ _ _ h]
        · simp [setTokens, hw, h, setMember_assignable _ _ _ h]
      | index k =>
        cases cur with
        | arr es ps =>
          by_cases hw : isNullish (getMember (.arr es ps) k) = true
          · simp [setTokens, hw, setMember_assignable (.arr es ps) _ _ (by simp [assignable])]
          · simp [setTokens, hw, setMember_assignable (.arr es ps) _ _ (by simp [assignable])]
        | obj fs => simp [setTokens, assignable]
        | null => simp [assignable] at h
        | undef => simp [assignable] at h
        | bool b => simp [assignable] at h
        | num x => simp [assignable] at h
        | str s => simp [assignable] at h
      | function name args => simpa [setTokens]

theorem set_get_roundtrip (toks : List PathToken) (cur v : JValue)
    (hne : toks ≠ []) (hok : (setTokens cur v toks).2 = none) :
    evalTokens (setTokens cur v toks).1 .undef toks = v := by
  induction toks generalizing cur with
  | nil => exact absurd rfl hne
  | cons t rest ih =>
    cases rest with
    | nil =>
      have ha : assignable cur = true := setTokens_success_assignable _ cur v hne hok
      cases t with
      | property name =>
        have h1 : setTokens cur v [.property name] = (setMember cur (.kstr name) v, none) := by
          simp [setTokens, ha]
        rw [h1]
        have h2 : isNullish (setMember cur (.kstr name) v) = false :=
          assignable_not_nullish _ (setMember_assignable _ _ _ ha)
        simp only [evalTokens, h2, Bool.false_eq_true, if_false,
          getMember_setMember_same _ _ _ ha]
        cases hv : isUndef v with
        | true => simp [isUndef_true_eq v hv]
        | false => simp [hv]
      | index k =>
        cases cur with
        | arr es ps =>
          have h1 : setTokens (.arr es ps) v [.index k] =
              (setMember (.arr es ps) k v, none) := by simp [setTokens]
          rw [h1]
          have h2 : isNullish (setMember (.arr es ps) k v) = false :=
            assignable_not_nullish _ (setMember_assignable _ _ _ (by simp [assignable]))
          simp only [evalTokens, h2, Bool.false_eq_true, if_false,
            getMember_setMember_same (.arr es ps) _ _ (by simp [assignable])]
          cases hv : isUndef v with
          | true => simp [isUndef_true_eq v hv]
          | false => simp [hv]
        | obj fs => simp [setTokens] at hok
        | null => simp [assignable] at ha
        | undef => simp [assignable] at ha
        | bool b => simp [assignable] at ha
        | num x => simp [assignable] at ha
        | str s => simp [assignable] at ha
      | function name args => simp [setTokens] at hok
    | cons next rest =>
      have ha : assignable cur = true := setTokens_success_assignable _ cur v hne hok
      cases t with
      | property name =>
        by_cases hw : isNullish (getMember cur (.kstr name)) = true
        · have h1 : setTokens cur v (.property name :: next :: rest) =
              (setMember cur (.kstr name) (setTokens (vivifyFor next) v (next :: rest)).1,
                (setTokens (vivifyFor next) v (next :: rest)).2) := by
            simp [setTokens, hw, ha]
          rw [h1] at hok ⊢
          have hsub : (setTokens (vivifyFor next) v (next :: rest)).2 = none := hok
          have h2 : isNullish (setMember cur (.kstr name)
              (setTokens (vivifyFor next) v (next :: rest)).1) = false :=
            assignable_not_nullish _ (setMember_assignable _ _ _ ha)
          simp only [evalTokens, h2, Bool.false_eq_true, if_false,
            getMember_setMember_same _ _ _ ha]
          exact ih _ (by simp) hsub
        · have h1 : setTokens cur v (.property name :: next :: rest) =
              (setMember cur (.kstr name)
                  (setTokens (getMember cur (.kstr name)) v (next :: rest)).1,
                (setTokens (getMember cur (.kstr name)) v (next :: rest)).2) := by
            simp [setTokens, hw]
          rw [h1] at hok ⊢
          have h2 : isNullish (setMember cur (.kstr name)
              (setTokens (getMember cur (.kstr name)) v (next :: rest)).1) = false :=
            assignable_not_nullish _ (setMember_assignable _ _ _ ha)
          simp only [evalTokens, h2, Bool.false_eq_true, if_false,
            getMember_setMember_same _ _ _ ha]
          exact ih _ (by simp) hok
      | index k =>
        cases cur with
        | arr es ps =>
          by_cases hw : isNullish (getMember (.arr es ps) k) = true
          · have h1 : setTokens (.arr es ps) v (.index k :: next :: rest) =
                (setMember (.arr es ps) k (setTokens (vivifyFor next) v (next :: rest)).1,
                  (setTokens (vivifyFor next) v (next :: rest)).2) := by
              simp [setTokens, hw]
            rw [h1] at hok ⊢
            have h2 : isNullish (setMember (.arr es ps) k
                (setTokens (vivifyFor next) v (next :: rest)).1) = false :=
              assignable_not_nullish _ (setMember_assignable _ _ _ (by simp [assignable]))
            simp only [evalTokens, h2, Bool.false_eq_true, if_false,
              getMember_setMember_same (.arr es ps) _ _ (by simp [assignable])]
            exact ih _ (by simp) hok
          · have h1 : setTokens (.arr es ps) v (.index k :: next :: rest) =
                (setMember (.arr es ps) k
                    (setTokens (getMember (.arr es ps) k) v (next :: rest)).1,
                  (setTokens (getMember (.arr es ps) k) v (next :: rest)).2) := by
              simp [setTokens, hw]
            rw [h1] at hok ⊢
            have h2 : isNullish (setMember (.arr es ps) k
                (setTokens (getMember (.arr es ps) k) v (next :: rest)).1) = false :=
              assignable_not_nullish _ (setMember_assignable _ _ _ (by simp [assignable]))
            simp only [evalTokens, h2, Bool.false_eq_true, if_false,
              getMember_setMember_same (.arr es ps) _ _ (by simp [assignable])]
            exact ih _ (by simp) hok
        | obj fs => simp [setTokens] at hok
        | null => simp [assignable] at ha
        | undef => simp [assignable] at ha
        | bool b => simp [assignable] at ha
        | num x => simp [assignable] at ha
        | str s => simp [assignable] at ha
      | function name args => simp [setTokens] at hok

/-- C2 (amended): write-then-read round trip.  For a truthy root, a path
whose token sequence is nonempty and contains only `property`/`index` tokens,
and a value `v`, if the internal write completes without error then
`LGet (LSet root p v) p undefined = v`.  (The claim's unconditional form is
refuted by `c2_round_trip_counterexample`: the write can fail internally, and
the empty token sequence writes nothing.) -/
theorem c2_round_trip_amended (root : JValue) (p : String) (v : JValue)
    (hroot : truthy root = true)
    (hne : (tokenizePath p).isEmpty = false)
    (_hpi : (tokenizePath p).all propOrIndex = true)
    (hok : (setValueAtPath root p v).2 = none) :
    LGet (LSet root p v) p .undef = v := by
  have hne' : tokenizePath p ≠ [] := by
    cases h : tokenizePath p with
    | nil => rw [h] at hne; simp [List.isEmpty] at hne
    | cons a b => simp
  have hset : LSet root p v = (setTokens root v (tokenizePath p)).1 := by
    simp [LSet, hroot, setValueAtPath]
  have hokt : (setTokens root v (tokenizePath p)).2 = none := hok
  have hassign : assignable root = true := setTokens_success_assignable _ _ _ hne' hokt
  have htr : truthy (setTokens root v (tokenizePath p)).1 = true :=
    assignable_truthy _ (setTokens_assignable _ _ _ hassign)
  rw [hset]
  simp only [LGet, evaluatePath, htr, if_true]
  exact set_get_roundtrip _ _ _ hne' hokt

/-- C2 counterexample: for `root = {a: 1}` and the property-token-only path
`"a.b"`, the write fails internally (property assignment on the primitive
`1`), so `get(set(root, "a.b", 7), "a.b")` is `undefined`, not `7` — the
claimed round trip fails even though the path has no function-call tokens. -/
theorem c2_round_trip_counterexample :
    LGet (LSet (.obj [("a", jn 1)]) "a.b" (jn 7)) "a.b" .undef = .undef ∧
    (JValue.undef ≠ jn 7) ∧
    (tokenizePath "a.b").all propOrIndex = true ∧
    truthy (.obj [("a", jn 1)]) = true :=
  ⟨rfl, fun h => JValue.noConfusion h, rfl, rfl⟩

theorem c2_round_trip_amended_witness :
    truthy (.obj [("a", jn 1)]) = true ∧
    LGet (LSet (.obj [("a", jn 1)]) "b" (jn 3)) "b" .undef = jn 3 :=
  ⟨rfl, c2_round_trip_amended (.obj [("a", jn 1)]) "b" (jn 3) rfl rfl rfl rfl⟩

theorem topSplitLoop_ne_nil (cs : List Char) (prev inStr : Option Char) (par br : Int)
    (current : List Char) : topSplitLoop cs prev inStr par br current ≠ [] := by
  induction cs generalizing prev inStr par br current with
  | nil => simp [topSplitLoop]
  | cons c cs ih =>
    cases inStr with
    | some q =>
      by_cases h : c = q ∧ prev ≠ some '\\' <;> simp [topSplitLoop, h, ih]
    | none =>
      simp only [topSplitLoop]
      split
      · apply ih
      · split
        · apply ih
        · split
          · apply ih
          · split
            · apply ih
            · split
              · apply ih
              · split
                · simp
                · apply ih

theorem applyFields_cons (f : List Char) (L : List (List Char)) (h : L ≠ []) :
    applyFields (f :: L) = parseValue (String.mk (trimChars f)) :: applyFields L := by
  cases L with
  | nil => exact absurd rfl h
  | cons g gs => rfl

theorem parseArgsLoop_eq (cs : List Char) (prev inStr : Option Char) (par br : Int)
    (current : List Char) :
    parseArgsLoop cs prev inStr par br current =
      applyFields (topSplitLoop cs prev inStr par br current) := by
  induction cs generalizing prev inStr par br current with
  | nil => rfl
  | cons c cs ih =>
    cases inStr with
    | some q =>
      by_cases h : c = q ∧ prev ≠ some '\\' <;> simp [parseArgsLoop, topSplitLoop, h, ih]
    | none =>
      by_cases h1 : c = '"' ∨ c = '\''
      · simp [parseArgsLoop, topSplitLoop, h1, ih]
      · by_cases h2 : c = '('
        · simp [parseArgsLoop, topSplitLoop, h1, h2, ih]
        · by_cases h3 : c = ')'
          · simp [parseArgsLoop, topSplitLoop, h1, h2, h3, ih]
          · by_cases h4 : c = '['
            · simp [parseArgsLoop, topSplitLoop, h1, h2, h3, h4, ih]
            · by_cases h5 : c = ']'
              · simp [parseArgsLoop, topSplitLoop, h1, h2, h3, h4, h5, ih]
              · by_cases h6 : c = ',' ∧ par = 0 ∧ br = 0
                · simp only [parseArgsLoop, topSplitLoop]
                  simp only [if_neg h1, if_neg h2, if_neg h3, if_neg h4, if_neg h5,
                    if_pos h6]
                  rw [applyFields_cons _ _ (topSplitLoop_ne_nil _ _ _ _ _ _), ih]
                · simp [parseArgsLoop, topSplitLoop, h1, h2, h3, h4, h5, h6, ih]

/-- C6 (amended): `parseArguments` splits exactly at the commas outside
quote mode at zero paren/bracket depth (the fields of `topSplitLoop`, which
runs the same quote/escape/depth state machine) and applies `parseValue` to
each trimmed field in order, except that a final field that is empty after
trimming is not emitted; whitespace-only input yields `[]`.  The claim's two
examples hold as stated.  (The claim's "each field" form is refuted by
`c6_parse_arguments_counterexample`: a trailing empty field is dropped.) -/
theorem c6_parse_arguments_amended :
    (parseArguments "1, 'two', [3,4], true, null" =
      [jn 1, .str "two", .arr [jn 3, jn 4] [], .bool true, .null]) ∧
    (parseArguments "\"a,b\", 2" = [.str "a,b", jn 2]) ∧
    (∀ s : String, parseArguments s =
      if trimChars s.data = [] then []
      else applyFields (topSplitLoop s.data none none 0 0 [])) := by
  refine ⟨rfl, rfl, fun s => ?_⟩
  by_cases h : trimChars s.data = []
  · simp [parseArguments, h]
  · simp [parseArguments, h, parseArgsLoop_eq]

/-- C6 counterexample: `parseArguments "1,"` is `[1]`, but splitting at the
top-level comma gives fields `"1"` and `""`, so applying the Value Literal
Parser to each trimmed field would give `[1, ""]` — the final empty field is
dropped, not parsed. -/
theorem c6_parse_arguments_counterexample :
    parseArguments "1," ≠ (topSplit "1,").map (fun f => parseValue (jsTrim f)) := by
  intro h
  have h2 : ([jn 1] : List JValue) = [jn 1, .str ""] := by
    calc ([jn 1] : List JValue) = parseArguments "1," := by rfl
      _ = (topSplit "1,").map (fun f => parseValue (jsTrim f)) := h
      _ = [jn 1, .str ""] := by rfl
  injection h2 with h3 h4
  injection h4

theorem alookup_ainsert_other (k k' : String) (v : JValue) (fs : List (String × JValue))
    (h : k' ≠ k) : alookup k' (ainsert k v fs) = alookup k' fs := by
  have hkk : ¬(k = k') := fun e => h e.symm
  induction fs with
  | nil => simp [ainsert, alookup, hkk]
  | cons kv fs ih =>
    by_cases h1 : kv.1 = k
    · simp [ainsert, alookup, h1, hkk]
    · by_cases h2 : kv.1 = k'
      · simp [ainsert, alookup, h1, h2, h]
      · simp [ainsert, alookup, h1, h2, ih]

theorem lsetPad_get_other (es : List JValue) (n m : Nat) (v : JValue) (h : m ≠ n) :
    ((lsetPad es n v)[m]?).getD .undef = (es[m]?).getD .undef := by
  induction n generalizing es m with
  | zero =>
    cases es with
    | nil => cases m with
      | zero => exact absurd rfl h
      | succ m => simp [lsetPad]
    | cons e es => cases m with
      | zero => exact absurd rfl h
      | succ m => simp [lsetPad]
  | succ n ih =>
    cases es with
    | nil =>
      cases m with
      | zero => simp [lsetPad]
      | succ m => simpa [lsetPad] using ih [] m (fun e => h (by simp [e]))
    | cons e es =>
      cases m with
      | zero => simp [lsetPad]
      | succ m => simpa [lsetPad] using ih es m (fun e => h (by simp [e]))

theorem lsetPad_length (es : List JValue) (n : Nat) (v : JValue) :
    es.length ≤ (lsetPad es n v).length := by
  induction n generalizing es with
  | zero => cases es <;> simp [lsetPad]
  | succ n ih =>
    cases es with
    | nil => simp [lsetPad]
    | cons e es => simpa [lsetPad] using ih es

theorem ainsert_keys_ext (k : String) (v : JValue) (fs : List (String × JValue)) :
    ∃ t, fs.map Prod.fst ++ t = (ainsert k v fs).map Prod.fst := by
  induction fs with
  | nil => exact ⟨[k], rfl⟩
  | cons kv fs ih =>
    by_cases h : kv.1 = k
    · exact ⟨[], by simp [ainsert, h]⟩
    · obtain ⟨t, ht⟩ := ih
      exact ⟨t, by simp [ainsert, h, ← ht]⟩

theorem keyShapeLE_refl (a : JValue) : keyShapeLE a a := by
  constructor
  · intro fs h; exact ⟨fs, h, [], by simp⟩
  · intro es ps h; exact ⟨es, ps, h, le_refl _, [], by simp⟩

theorem keyShapeLE_trivial (a b : JValue) (h1 : isObjV a = false) (h2 : isArrV a = false) :
    keyShapeLE a b := by
  constructor
  · intro fs he; rw [he] at h1; simp [isObjV] at h1
  · intro es ps he; rw [he] at h2; simp [isArrV] at h2

theorem setMember_keyShapeLE (cur : JValue) (k : JKey) (v : JValue) :
    keyShapeLE cur (setMember cur k v) := by
  cases cur with
  | obj fs =>
    constructor
    · intro fs' he
      cases he
      exact ⟨ainsert (keyString k) v fs, rfl, ainsert_keys_ext _ _ _⟩
    · intro es ps he; exact absurd he (by simp)
  | arr es ps =>
    constructor
    · intro fs' he; exact absurd he (by simp)
    · intro es' ps' he
      cases he
      cases hc : strCanonIndex (keyString k) with
      | some n =>
        exact ⟨lsetPad es n v, ps, by simp [setMember, hc], lsetPad_length _ _ _,
          [], by simp⟩
      | none =>
        exact ⟨es, ainsert (keyString k) v ps, by simp [setMember, hc], le_refl _,
          ainsert_keys_ext _ _ _⟩
  | null => exact keyShapeLE_trivial _ _ rfl rfl
  | undef => exact keyShapeLE_trivial _ _ rfl rfl
  | bool b => exact keyShapeLE_trivial _ _ rfl rfl
  | num x => exact keyShapeLE_trivial _ _ rfl rfl
  | str s => exact keyShapeLE_trivial _ _ rfl rfl

theorem getSlot_slotOf (cur : JValue) (k : JKey) :
    getSlot cur (slotOf cur k) = getMember cur k := by
  cases cur with
  | obj fs => simp [slotOf, getSlot, getMember]
  | arr es ps =>
    cases hc : strCanonIndex (keyString k) with
    | some n => simp [slotOf, getSlot, getMember, hc]
    | none => simp [slotOf, getSlot, getMember, hc]
  | null => simp [slotOf, getSlot, getMember]
  | undef => simp [slotOf, getSlot, getMember]
  | bool b => simp [slotOf, getSlot, getMember]
  | num x => simp [slotOf, getSlot, getMember]
  | str s => simp [slotOf, getSlot, getMember]

theorem getSlot_setMember_same (cur : JValue) (k : JKey) (v : JValue)
    (h : assignable cur = true) :
    getSlot (setMember cur k v) (slotOf cur k) = v := by
  cases cur with
  | obj fs => simp [slotOf, setMember, getSlot, alookup_ainsert_same]
  | arr es ps =>
    cases hc : strCanonIndex (keyString k) with
    | some n => simp [slotOf, setMember, getSlot, hc, List.get?_eq_getElem?, lsetPad_get_same]
    | none => simp [slotOf, setMember, getSlot, hc, alookup_ainsert_same]
  | null => simp [assignable] at h
  | undef => simp [assignable] at h
  | bool b => simp [assignable] at h
  | num x => simp [assignable] at h
  | str s => simp [assignable] at h

theorem getSlot_setMember_other (cur : JValue) (k : JKey) (v : JValue) (sl : Slot)
    (h : sl ≠ slotOf cur k) :
    getSlot (setMember cur k v) sl = getSlot cur sl := by
  cases cur with
  | obj fs =>
    cases sl with
    | elem n => simp [setMember, getSlot]
    | prop s =>
      have hs : s ≠ keyString k := fun e => h (by simp [slotOf, e])
      simp [setMember, getSlot, alookup_ainsert_other _ _ _ _ hs]
  | arr es ps =>
    cases hc : strCanonIndex (keyString k) with
    | some n =>
      cases sl with
      | elem m =>
        have hm : m ≠ n := fun e => h (by simp [slotOf, hc, e])
        simp [setMember, getSlot, hc, List.get?_eq_getElem?, lsetPad_get_other _ _ _ _ hm]
      | prop s => simp [setMember, getSlot, hc]
    | none =>
      cases sl with
      | elem m => simp [setMember, getSlot, hc]
      | prop s =>
        have hs : s ≠ keyString k := fun e => h (by simp [slotOf, hc, e])
        simp [setMember, getSlot, hc, alookup_ainsert_other _ _ _ _ hs]
  | null => simp [setMember]
  | undef => simp [setMember]
  | bool b => simp [setMember]
  | num x => simp [setMember]
  | str s => simp [setMember]

theorem chainGet_undef (q : List Slot) : chainGet .undef q = .undef := by
  induction q with
  | nil => rfl
  | cons sl q ih => cases sl <;> simpa [chainGet, getSlot] using ih

theorem getSlot_nullish (w : JValue) (sl : Slot) (h : isNullish w = true) :
    getSlot w sl = .undef := by
  cases w <;> simp_all [isNullish] <;> cases sl <;> simp [getSlot]

theorem chainGet_nullish (w : JValue) (q : List Slot) (hq : q ≠ [])
    (h : isNullish w = true) : chainGet w q = .undef := by
  cases q with
  | nil => exact absurd rfl hq
  | cons sl q => simp [chainGet, getSlot_nullish w sl h, chainGet_undef]

theorem getSlot_vivify (t : PathToken) (sl : Slot) : getSlot (vivifyFor t) sl = .undef := by
  cases t <;> cases sl <;> simp [vivifyFor, getSlot, alookup]

theorem chainGet_vivify (t : PathToken) (q : List Slot) (hq : q ≠ []) :
    chainGet (vivifyFor t) q = .undef := by
  cases q with
  | nil => exact absurd rfl hq
  | cons sl q => simp [chainGet, getSlot_vivify, chainGet_undef]

theorem setTokens_writePath_nil (toks : List PathToken) (cur v : JValue)
    (h : writePath cur v toks = []) : (setTokens cur v toks).1 = cur := by
  cases toks with
  | nil => rfl
  | cons t rest =>
    cases rest with
    | nil =>
      cases t with
      | property name =>
        by_cases ha : assignable cur = true
        · simp [writePath, ha] at h
        · simp [setTokens, ha]
      | index k =>
        cases cur with
        | arr es ps => simp [writePath] at h
        | obj fs => simp [setTokens]
        | null => simp [setTokens]
        | undef => simp [setTokens]
        | bool b => simp [setTokens]
        | num x => simp [setTokens]
        | str s => simp [setTokens]
      | function name args => simp [setTokens]
    | cons next rest =>
      cases t with
      | property name =>
        by_cases hw : isNullish (getMember cur (.kstr name)) = true
        · by_cases ha : assignable cur = true
          · simp [writePath, hw, ha] at h
          · simp [setTokens, hw, ha]
        · simp [writePath, hw] at h
      | index k =>
        cases cur with
        | arr es ps =>
          by_cases hw : isNullish (getMember (.arr es ps) k) = true <;>
            simp [writePath, hw] at h
        | obj fs => simp [setTokens]
        | null => simp [setTokens]
        | undef => simp [setTokens]
        | bool b => simp [setTokens]
        | num x => simp [setTokens]
        | str s => simp [setTokens]
      | function name args => simp [setTokens]

theorem divergent_nil (q : List Slot) : divergent q [] = false := by
  cases q <;> rfl

theorem frame_divergent (toks : List PathToken) (cur v : JValue) (q : List Slot)
    (h : divergent q (writePath cur v toks) = true) :
    chainGet (setTokens cur v toks).1 q = chainGet cur q := by
  induction toks generalizing cur q with
  | nil => simp [writePath, divergent_nil] at h
  | cons t rest ih =>
    cases rest with
    | nil =>
      cases t with
      | property name =>
        by_cases ha : assignable cur = true
        · have hwp : writePath cur v [.property name] = [slotOf cur (.kstr name)] := by
            simp [writePath, ha]
          rw [hwp] at h
          cases q with
          | nil => simp [divergent] at h
          | cons a q' =>
            by_cases hak : a = slotOf cur (.kstr name)
            · rw [hak] at h; simp [divergent, divergent_nil] at h
            · have h1 : setTokens cur v [.property name] =
                  (setMember cur (.kstr name) v, none) := by simp [setTokens, ha]
              rw [h1]
              simp only [chainGet]
              rw [getSlot_setMember_other _ _ _ _ hak]
        · have h1 : (setTokens cur v [.property name]).1 = cur := by simp [setTokens, ha]
          rw [h1]
      | index k =>
        cases cur with
        | arr es ps =>
          have hwp : writePath (.arr es ps) v [.index k] = [slotOf (.arr es ps) k] := by
            simp [writePath]
          rw [hwp] at h
          cases q with
          | nil => simp [divergent] at h
          | cons a q' =>
            by_cases hak : a = slotOf (.arr es ps) k
            · rw [hak] at h; simp [divergent, divergent_nil] at h
            · have h1 : setTokens (.arr es ps) v [.index k] =
                  (setMember (.arr es ps) k v, none) := by simp [setTokens]
              rw [h1]
              simp only [chainGet]
              rw [getSlot_setMember_other _ _ _ _ hak]
        | obj fs => simp [setTokens]
        | null => simp [setTokens]
        | undef => simp [setTokens]
        | bool b => simp [setTokens]
        | num x => simp [setTokens]
        | str s => simp [setTokens]
      | function name args => simp [setTokens]
    | cons next rest =>
      cases t with
      | property name =>
        by_cases hw : isNullish (getMember cur (.kstr name)) = true
        · by_cases ha : assignable cur = true
          · have hwp : writePath cur v (.property name :: next :: rest) =
                slotOf cur (.kstr name) :: writePath (vivifyFor next) v (next :: rest) := by
              simp [writePath, hw, ha]
            have hst : setTokens cur v (.property name :: next :: rest) =
                (setMember cur (.kstr name) (setTokens (vivifyFor next) v (next :: rest)).1,
                  (setTokens (vivifyFor next) v (next :: rest)).2) := by
              simp [setTokens, hw, ha]
            rw [hwp] at h
            cases q with
            | nil => simp [divergent] at h
            | cons a q' =>
              by_cases hak : a = slotOf cur (.kstr name)
              · subst hak
                simp only [divergent, if_pos rfl] at h
                have hq' : q' ≠ [] := by
                  intro e; rw [e] at h; simp [divergent] at h
                rw [hst]
                simp only [chainGet]
                rw [getSlot_setMember_same _ _ _ ha, getSlot_slotOf]
                rw [chainGet_nullish _ _ hq' hw]
                rw [ih _ _ h]
                exact chainGet_vivify _ _ hq'
              · rw [hst]
                simp only [chainGet]
                rw [getSlot_setMember_other _ _ _ _ hak]
          · simp [writePath, hw, ha, divergent_nil] at h
        · have ha : assignable cur = true :=
            getMember_nonnull_assignable _ _ (by simpa using hw)
          have hwp : writePath cur v (.property name :: next :: rest) =
              slotOf cur (.kstr name) ::
                writePath (getMember cur (.kstr name)) v (next :: rest) := by
            simp [writePath, hw]
          have hst : setTokens cur v (.property name :: next :: rest) =
              (setMember cur (.kstr name)
                  (setTokens (getMember cur (.kstr name)) v (next :: rest)).1,
                (setTokens (getMember cur (.kstr name)) v (next :: rest)).2) := by
            simp [setTokens, hw]
          rw [hwp] at h
          cases q with
          | nil => simp [divergent] at h
          | cons a q' =>
            by_cases hak : a = slotOf cur (.kstr name)
            · subst hak
              simp only [divergent, if_pos rfl] at h
              rw [hst]
              simp only [chainGet]
              rw [getSlot_setMember_same _ _ _ ha, getSlot_slotOf]
              exact ih _ _ h
            · rw [hst]
              simp only [chainGet]
              rw [getSlot_setMember_other _ _ _ _ hak]
      | index k =>
        cases cur with
        | arr es ps =>
          by_cases hw : isNullish (getMember (.arr es ps) k) = true
          · have hwp : writePath (.arr es ps) v (.index k :: next :: rest) =
                slotOf (.arr es ps) k :: writePath (vivifyFor next) v (next :: rest) := by
              simp [writePath, hw]
            have hst : setTokens (.arr es ps) v (.index k :: next :: rest) =
                (setMember (.arr es ps) k (setTokens (vivifyFor next) v (next :: rest)).1,
                  (setTokens (vivifyFor next) v (next :: rest)).2) := by
              simp [setTokens, hw]
            rw [hwp] at h
            cases q with
            | nil => simp [divergent] at h
            | cons a q' =>
              by_cases hak : a = slotOf (.arr es ps) k
              · subst hak
                simp only [divergent, if_pos rfl] at h
                have hq' : q' ≠ [] := by
                  intro e; rw [e] at h; simp [divergent] at h
                rw [hst]
                simp only [chainGet]
                rw [getSlot_setMember_same _ _ _ (by simp [assignable]), getSlot_slotOf]
                rw [chainGet_nullish _ _ hq' hw]
                rw [ih _ _ h]
                exact chainGet_vivify _ _ hq'
              · rw [hst]
                simp only [chainGet]
                rw [getSlot_setMember_other _ _ _ _ hak]
          · have hwp : writePath (.arr es ps) v (.index k :: next :: rest) =
                slotOf (.arr es ps) k ::
                  writePath (getMember (.arr es ps) k) v (next :: rest) := by
              simp [writePath, hw]
            have hst : setTokens (.arr es ps) v (.index k :: next :: rest) =
                (setMember (.arr es ps) k
                    (setTokens (getMember (.arr es ps) k) v (next :: rest)).1,
                  (setTokens (getMember (.arr es ps) k) v (next :: rest)).2) := by
              simp [setTokens, hw]
            rw [hwp] at h
            cases q with
            | nil => simp [divergent] at h
            | cons a q' =>
              by_cases hak : a = slotOf (.arr es ps) k
              · subst hak
                simp only [divergent, if_pos rfl] at h
                rw [hst]
                simp only [chainGet]
                rw [getSlot_setMember_same _ _ _ (by simp [assignable]), getSlot_slotOf]
                exact ih _ _ h
              · rw [hst]
                simp only [chainGet]
                rw [getSlot_setMember_other _ _ _ _ hak]
        | obj fs => simp [setTokens]
        | null => simp [setTokens]
        | undef => simp [setTokens]
        | bool b => simp [setTokens]
        | num x => simp [setTokens]
        | str s => simp [setTokens]
      | function name args => simp [setTokens]

theorem keyShapeLE_nullish (w b : JValue) (h : isNullish w = true) : keyShapeLE w b := by
  cases w <;> simp_all [isNullish] <;> exact keyShapeLE_trivial _ _ rfl rfl

theorem frontOf_nil_elim (q : List Slot) (h : frontOf q []) : False := by
  obtain ⟨s, t, e⟩ := h
  exact absurd e (by simp)

theorem frontOf_cons_elim (a : Slot) (q' : List Slot) (b : Slot) (w : List Slot)
    (h : frontOf (a :: q') (b :: w)) : a = b ∧ frontOf q' w := by
  obtain ⟨s, t, e⟩ := h
  injection e with e1 e2
  exact ⟨e1, s, t, e2⟩

theorem frontOf_single_elim (q : List Slot) (b : Slot) (h : frontOf q [b]) : q = [] := by
  cases q with
  | nil => rfl
  | cons a q' =>
    obtain ⟨e1, h'⟩ := frontOf_cons_elim _ _ _ _ h
    exact absurd h' (fun hh => frontOf_nil_elim _ hh)

theorem frame_shape (toks : List PathToken) (cur v : JValue) (q : List Slot)
    (h : frontOf q (writePath cur v toks)) :
    keyShapeLE (chainGet cur q) (chainGet (setTokens cur v toks).1 q) := by
  induction toks generalizing cur q with
  | nil => exact absurd h (fun hh => frontOf_nil_elim _ (by simpa [writePath] using hh))
  | cons t rest ih =>
    cases rest with
    | nil =>
      cases t with
      | property name =>
        by_cases ha : assignable cur = true
        · have hwp : writePath cur v [.property name] = [slotOf cur (.kstr name)] := by
            simp [writePath, ha]
          rw [hwp] at h
          have hq : q = [] := frontOf_single_elim _ _ h
          subst hq
          have h1 : setTokens cur v [.property name] =
              (setMember cur (.kstr name) v, none) := by simp [setTokens, ha]
          rw [h1]
          exact setMember_keyShapeLE _ _ _
        · exact absurd h (fun hh => frontOf_nil_elim _ (by simpa [writePath, ha] using hh))
      | index k =>
        cases cur with
        | arr es ps =>
          have hwp : writePath (.arr es ps) v [.index k] = [slotOf (.arr es ps) k] := by
            simp [writePath]
          rw [hwp] at h
          have hq : q = [] := frontOf_single_elim _ _ h
          subst hq
          have h1 : setTokens (.arr es ps) v [.index k] =
              (setMember (.arr es ps) k v, none) := by simp [setTokens]
          rw [h1]
          exact setMember_keyShapeLE _ _ _
        | obj fs => exact absurd h (fun hh => frontOf_nil_elim _ (by simpa [writePath] using hh))
        | null => exact absurd h (fun hh => frontOf_nil_elim _ (by simpa [writePath] using hh))
        | undef => exact absurd h (fun hh => frontOf_nil_elim _ (by simpa [writePath] using hh))
        | bool b => exact absurd h (fun hh => frontOf_nil_elim _ (by simpa [writePath] using hh))
        | num x => exact absurd h (fun hh => frontOf_nil_elim _ (by simpa [writePath] using hh))
        | str s => exact absurd h (fun hh => frontOf_nil_elim _ (by simpa [writePath] using hh))
      | function name args =>
        exact absurd h (fun hh => frontOf_nil_elim _ (by simpa [writePath] using hh))
    | cons next rest =>
      cases t with
      | property name =>
        by_cases hw : isNullish (getMember cur (.kstr name)) = true
        · by_cases ha : assignable cur = true
          · have hwp : writePath cur v (.property name :: next :: rest) =
                slotOf cur (.kstr name) :: writePath (vivifyFor next) v (next :: rest) := by
              simp [writePath, hw, ha]
            have hst : setTokens cur v (.property name :: next :: rest) =
                (setMember cur (.kstr name) (setTokens (vivifyFor next) v (next :: rest)).1,
                  (setTokens (vivifyFor next) v (next :: rest)).2) := by
              simp [setTokens, hw, ha]
            rw [hwp] at h
            cases q with
            | nil => rw [hst]; exact setMember_keyShapeLE _ _ _
            | cons a q' =>
              obtain ⟨ha1, h'⟩ := frontOf_cons_elim _ _ _ _ h
              subst ha1
              rw [hst]
              simp only [chainGet]
              rw [getSlot_setMember_same _ _ _ ha, getSlot_slotOf]
              cases hq' : q' with
              | nil => exact keyShapeLE_nullish _ _ hw
              | cons b q'' =>
                rw [chainGet_nullish _ _ (by simp [hq']) hw]
                exact keyShapeLE_trivial _ _ rfl rfl
          · exact absurd h
              (fun hh => frontOf_nil_elim _ (by simpa [writePath, hw, ha] using hh))
        · have ha : assignable cur = true :=
            getMember_nonnull_assignable _ _ (by simpa using hw)
          have hwp : writePath cur v (.property name :: next :: rest) =
              slotOf cur (.kstr name) ::
                writePath (getMember cur (.kstr name)) v (next :: rest) := by
            simp [writePath, hw]
          have hst : setTokens cur v (.property name :: next :: rest) =
              (setMember cur (.kstr name)
                  (setTokens (getMember cur (.kstr name)) v (next :: rest)).1,
                (setTokens (getMember cur (.kstr name)) v (next :: rest)).2) := by
            simp [setTokens, hw]
          rw [hwp] at h
          cases q with
          | nil => rw [hst]; exact setMember_keyShapeLE _ _ _
          | cons a q' =>
            obtain ⟨ha1, h'⟩ := frontOf_cons_elim _ _ _ _ h
            subst ha1
            rw [hst]
            simp only [chainGet]
            rw [getSlot_setMember_same _ _ _ ha, getSlot_slotOf]
            exact ih _ _ h'
      | index k =>
        cases cur with
        | arr es ps =>
          by_cases hw : isNullish (getMember (.arr es ps) k) = true
          · have hwp : writePath (.arr es ps) v (.index k :: next :: rest) =
                slotOf (.arr es ps) k :: writePath (vivifyFor next) v (next :: rest) := by
              simp [writePath, hw]
            have hst : setTokens (.arr es ps) v (.index k :: next :: rest) =
                (setMember (.arr es ps) k (setTokens (vivifyFor next) v (next :: rest)).1,
                  (setTokens (vivifyFor next) v (next :: rest)).2) := by
              simp [setTokens, hw]
            rw [hwp] at h
            cases q with
            | nil => rw [hst]; exact setMember_keyShapeLE _ _ _
            | cons a q' =>
              obtain ⟨ha1, h'⟩ := frontOf_cons_elim _ _ _ _ h
              subst ha1
              rw [hst]
              simp only [chainGet]
              rw [getSlot_setMember_same _ _ _ (by simp [assignable]), getSlot_slotOf]
              cases hq' : q' with
              | nil => exact keyShapeLE_nullish _ _ hw
              | cons b q'' =>
                rw [chainGet_nullish _ _ (by simp [hq']) hw]
                exact keyShapeLE_trivial _ _ rfl rfl
          · have hwp : writePath (.arr es ps) v (.index k :: next :: rest) =
                slotOf (.arr es ps) k ::
                  writePath (getMember (.arr es ps) k) v (next :: rest) := by
              simp [writePath, hw]
            have hst : setTokens (.arr es ps) v (.index k :: next :: rest) =
                (setMember (.arr es ps) k
                    (setTokens (getMember (.arr es ps) k) v (next :: rest)).1,
                  (setTokens (getMember (.arr es ps) k) v (next :: rest)).2) := by
              simp [setTokens, hw]
            rw [hwp] at h
            cases q with
            | nil => rw [hst]; exact setMember_keyShapeLE _ _ _
            | cons a q' =>
              obtain ⟨ha1, h'⟩ := frontOf_cons_elim _ _ _ _ h
              subst ha1
              rw [hst]
              simp only [chainGet]
              rw [getSlot_setMember_same _ _ _ (by simp [assignable]), getSlot_slotOf]
              exact ih _ _ h'
        | obj fs => exact absurd h (fun hh => frontOf_nil_elim _ (by simpa [writePath] using hh))
        | null => exact absurd h (fun hh => frontOf_nil_elim _ (by simpa [writePath] using hh))
        | undef => exact absurd h (fun hh => frontOf_nil_elim _ (by simpa [writePath] using hh))
        | bool b => exact absurd h (fun hh => frontOf_nil_elim _ (by simpa [writePath] using hh))
        | num x => exact absurd h (fun hh => frontOf_nil_elim _ (by simpa [writePath] using hh))
        | str s => exact absurd h (fun hh => frontOf_nil_elim _ (by simpa [writePath] using hh))
      | function name args =>
        exact absurd h (fun hh => frontOf_nil_elim _ (by simpa [writePath] using hh))

/-- C5 (amended): the mutator's frame property.  Writing mutates only along
the slot path `writePath` it descends: every slot chain that diverges from
that path reads the same value before and after the call; every container on
a strict front of that path keeps all its keys, in order, with new keys only
appended (and arrays never shrink); and when the walk wrote nothing the root
is returned unchanged.  (The claim's unconditional "every key/index present
is still present" form is refuted by `c5_mutator_frame_counterexample`: the
terminal assignment replaces the target slot's old subtree wholesale.) -/
theorem c5_mutator_frame_amended (root : JValue) (p : String) (v : JValue) :
    ((if truthy root then writePath root v (tokenizePath p) else []) = [] →
      LSet root p v = root) ∧
    (∀ q, divergent q (if truthy root then writePath root v (tokenizePath p) else []) = true →
      chainGet (LSet root p v) q = chainGet root q) ∧
    (∀ q, frontOf q (if truthy root then writePath root v (tokenizePath p) else []) →
      keyShapeLE (chainGet root q) (chainGet (LSet root p v) q)) := by
  by_cases h : truthy root = true
  · simp only [h, if_true]
    refine ⟨?_, ?_, ?_⟩
    · intro he
      simp only [LSet, h, if_true, setValueAtPath]
      exact setTokens_writePath_nil _ _ _ he
    · intro q hq
      simp only [LSet, h, if_true, setValueAtPath]
      exact frame_divergent _ _ _ _ hq
    · intro q hq
      simp only [LSet, h, if_true, setValueAtPath]
      exact frame_shape _ _ _ _ hq
  · have h' : truthy root = false := by simpa using h
    simp only [h', Bool.false_eq_true, if_false]
    refine ⟨fun _ => by simp [LSet, h'], fun q hq => ?_, fun q hq => ?_⟩
    · rw [divergent_nil] at hq; exact absurd hq (by simp)
    · exact absurd hq (fun hh => frontOf_nil_elim _ hh)

/-- C5 counterexample: in `root = {a: {b: 1}}` the key `b` of the container
at `a` is present before `set(root, "a", 5)` (it reads `1`) and absent
afterwards (it reads `undefined`): the terminal assignment deletes existing
entries of the replaced subtree, contradicting the unconditional claim. -/
theorem c5_mutator_frame_counterexample :
    LGet (.obj [("a", .obj [("b", jn 1)])]) "a.b" .undef = jn 1 ∧
    LSet (.obj [("a", .obj [("b", jn 1)])]) "a" (jn 5) = .obj [("a", jn 5)] ∧
    LGet (LSet (.obj [("a", .obj [("b", jn 1)])]) "a" (jn 5)) "a.b" .undef = .undef ∧
    JValue.undef ≠ jn 1 :=
  ⟨rfl, rfl, rfl, fun h => JValue.noConfusion h⟩

theorem c5_mutator_frame_amended_witness :
    divergent [Slot.prop "x"]
      (if truthy (.obj [("x", jn 1)]) then
        writePath (.obj [("x", jn 1)]) (jn 2) (tokenizePath "a.b") else []) = true ∧
    chainGet (LSet (.obj [("x", jn 1)]) "a.b" (jn 2)) [Slot.prop "x"] =
      chainGet (.obj [("x", jn 1)]) [Slot.prop "x"] ∧
    keyShapeLE (chainGet (.obj [("x", jn 1)]) [])
      (chainGet (LSet (.obj [("x", jn 1)]) "a.b" (jn 2)) []) :=
  ⟨rfl, (c5_mutator_frame_amended (.obj [("x", jn 1)]) "a.b" (jn 2)).2.1 [Slot.prop "x"] rfl,
    (c5_mutator_frame_amended (.obj [("x", jn 1)]) "a.b" (jn 2)).2.2 []
      ⟨Slot.prop "a", [Slot.prop "b"], rfl⟩⟩

theorem c4_index_key_typing_witness :
    ('[' ∉ ("10" : String).data ∧ ']' ∉ ("10" : String).data) ∧
    tokenizePath "x[10]" = [.property "x", indexTokenOf "10"] ∧
    indexTokenOf "10" = .index (.knum (.rat 10)) :=
  ⟨⟨by decide, by decide⟩,
    by
      have h := (c4_index_key_typing.2.1 "10" (by decide) (by decide)).1
      simpa using h,
    (c4_index_key_typing.2.1 "10" (by decide) (by decide)).2.1 10 rfl⟩

theorem c9_falsy_roots_default_witness :
    truthy (jn 0) = false ∧ LGet (jn 0) "a.b" (jn 7) = jn 7 ∧
    LSet (jn 0) "a.b" (jn 1) = jn 0 :=
  ⟨rfl, (c9_falsy_roots_default (jn 0) "a.b" (jn 7) (jn 1) rfl).1,
    (c9_falsy_roots_default (jn 0) "a.b" (jn 7) (jn 1) rfl).2.1⟩

theorem c3_auto_vivification_witness :
    isNullish (getMember (.obj []) (.kstr "a")) = true ∧
    assignable (.obj []) = true ∧
    setTokens (.obj []) (jn 1) [.property "a", .index (.knum (.rat 0))] =
      (setMember (.obj []) (.kstr "a")
          (setTokens (vivifyFor (.index (.knum (.rat 0)))) (jn 1)
            [.index (.knum (.rat 0))]).1,
        (setTokens (vivifyFor (.index (.knum (.rat 0)))) (jn 1)
          [.index (.knum (.rat 0))]).2) :=
  ⟨rfl, rfl, c3_auto_vivification.2.1 (.obj []) (jn 1) "a" (.index (.knum (.rat 0))) [] rfl rfl⟩

theorem c10_string_index_asymmetry_witness :
    isUndef (jn 9) = false ∧
    LGet (.obj [("a", .obj [("name", jn 9)])]) "a[name]" .undef = jn 9 ∧
    LSet (.obj [("a", .obj [("name", jn 9)])]) "a[name]" (jn 1) =
      .obj [("a", .obj [("name", jn 9)])] :=
  ⟨rfl, (c10_string_index_asymmetry.1 (jn 9) (jn 1) .undef rfl).1, (c10_string_index_asymmetry.1 (jn 9) (jn 1) .undef rfl).2.1⟩

theorem mlookup_no_method (name : String) (fields : List (String × HMember))
    (m : MethodCode) (h : fieldsAllVal fields = true) :
    mlookup name fields ≠ some (.method m) := by
  induction fields with
  | nil => simp [mlookup]
  | cons kv fs ih =>
    simp only [fieldsAllVal, List.all_cons, Bool.and_eq_true] at h
    by_cases hk : kv.1 = name
    · simp only [mlookup, hk, if_pos rfl]
      intro he
      injection he with he2
      rw [he2] at h
      simp at h
    · simp only [mlookup, hk, if_false]
      exact ih (by simp [fieldsAllVal, h.2])

theorem storeGet_methodFree (st : Store) (r : Nat) (h : methodFree st = true) :
    fieldsAllVal (storeGet st r) = true := by
  unfold storeGet
  cases hg : st[r]? with
  | none => simp [fieldsAllVal]
  | some fields =>
    simp only [Option.getD_some]
    have hmem : fields ∈ st := by
      have := List.getElem?_eq_some.mp hg
      obtain ⟨hlt, he⟩ := this
      exact he ▸ List.getElem_mem _
    exact List.all_eq_true.mp h _ hmem

theorem evalTokensFx_methodFree (toks : List PathToken) (st : Store) (cur d : HValue)
    (h : methodFree st = true) : (evalTokensFx d st cur toks).1 = st := by
  induction toks generalizing cur with
  | nil => rfl
  | cons t rest ih =>
    by_cases hn : isNullishH cur = true
    · simp [evalTokensFx, hn]
    · cases t with
      | property name => simpa [evalTokensFx, hn] using ih _
      | index k => simpa [evalTokensFx, hn] using ih _
      | function name args =>
        cases cur with
        | ref r =>
          cases hm : mlookup name (storeGet st r) with
          | some mem =>
            cases mem with
            | method m =>
              exact absurd hm (mlookup_no_method _ _ _ (storeGet_methodFree _ _ h))
            | val v => simp [evalTokensFx, hn, hm]
          | none => simp [evalTokensFx, hn, hm]
        | prim v => simp [evalTokensFx, hn]
        | fnv m => simp [evalTokensFx, hn]

/-- C8 (amended): `get` is idempotent and effect-free for plain-data roots.
Over the heap model, when no object of the store has a callable member,
`LGetFx` leaves the store unchanged, and a second identical call — run on the
state the first call left behind — returns exactly what the first one did.
(The claim's unconditional form is refuted by
`c8_impure_member_counterexample`: a `FunctionCall` token invoking an impure
member, line 124, both mutates the root and makes identical calls differ.) -/
theorem c8_get_idempotent_amended (st : Store) (root d : HValue) (p : String)
    (h : methodFree st = true) :
    (LGetFx st root p d).1 = st ∧
    LGetFx (LGetFx st root p d).1 root p d = LGetFx st root p d := by
  have h1 : (LGetFx st root p d).1 = st := by
    unfold LGetFx
    by_cases ht : truthyH root = true
    · simp only [ht, if_true]
      exact evalTokensFx_methodFree _ _ _ _ h
    · have ht' : truthyH root = false := by simpa using ht
      simp only [ht', Bool.false_eq_true, if_false]
  exact ⟨h1, by rw [h1]⟩

/-- C8 counterexample: the root `{i: 0, f() { return ++this.i }}` —
heap object 0 with numeric field `i` and impure method `f` — refutes the
unconditional claim: `get(root, "f()")` returns `1` the first time and `2`
the second time, and the member `i`, `0` before the first call, reads `1`
afterwards: identical calls differ and the root is visibly mutated. -/
theorem c8_impure_member_counterexample :
    (LGetFx [[("i", .val (.prim (jn 0))), ("f", .method (.incrField "i"))]]
        (.ref 0) "f()" (.prim .undef)).2 = .prim (.num (.rat 1)) ∧
    (LGetFx (LGetFx [[("i", .val (.prim (jn 0))), ("f", .method (.incrField "i"))]]
          (.ref 0) "f()" (.prim .undef)).1
        (.ref 0) "f()" (.prim .undef)).2 = .prim (.num (.rat 2)) ∧
    (HValue.prim (.num (.rat 1)) ≠ .prim (.num (.rat 2))) ∧
    readMemberH [[("i", .val (.prim (jn 0))), ("f", .method (.incrField "i"))]]
        (.ref 0) (.kstr "i") = .prim (.num (.rat 0)) ∧
    readMemberH (LGetFx [[("i", .val (.prim (jn 0))), ("f", .method (.incrField "i"))]]
          (.ref 0) "f()" (.prim .undef)).1
        (.ref 0) (.kstr "i") = .prim (.num (.rat 1)) ∧
    (HValue.prim (.num (.rat 0)) ≠ .prim (.num (.rat 1))) := by
  refine ⟨rfl, rfl, ?_, rfl, rfl, ?_⟩
  · intro h
    injection h with h1
    injection h1 with h2
    injection h2 with h3
    exact absurd h3 (by decide)
  · intro h
    injection h with h1
    injection h1 with h2
    injection h2 with h3
    exact absurd h3 (by decide)

theorem c8_get_idempotent_amended_witness :
    methodFree [[("i", .val (.prim (jn 0)))]] = true ∧
    (LGetFx [[("i", .val (.prim (jn 0)))]] (.ref 0) "i" (.prim .undef)).1 =
      [[("i", .val (.prim (jn 0)))]] ∧
    LGetFx (LGetFx [[("i", .val (.prim (jn 0)))]] (.ref 0) "i" (.prim .undef)).1
        (.ref 0) "i" (.prim .undef) =
      LGetFx [[("i", .val (.prim (jn 0)))]] (.ref 0) "i" (.prim .undef) :=
  ⟨rfl, (c8_get_idempotent_amended [[("i", .val (.prim (jn 0)))]] (.ref 0) (.prim .undef)
      "i" rfl).1,
    (c8_get_idempotent_amended [[("i", .val (.prim (jn 0)))]] (.ref 0) (.prim .undef)
      "i" rfl).2⟩

end Baja
